import Mathlib

/-!
Verification development for the c4-astro documentation-site build pipeline.

The pipeline source consists of:
- scripts/generate-uml.mjs : batch PlantUML-to-SVG conversion driver and CLI entry point
- src/lib/plantuml.mjs     : shared renderer, file discovery and reference scanner
- src/lib/likec4.mjs       : LikeC4 model access facade and C4 view reference scanner
- astro.config.mjs         : sidebar generation from the uml source tree

Effectful code is embedded as pure state passing: the filesystem is an explicit
tree or association list, network responses are explicit inputs, and the cached
module-level LikeC4 instance is explicit state.  All definitions are executable.
-/

/-! Section 1: string primitives.

Strings are Lean String values; reasoning happens on their underlying
character lists.  JS string operations used by the source are given
direct counterparts here.
-/

/-- Character written in source as a double quote. -/
def cDQ : Char := Char.ofNat 34

/-- Character written in source as a single quote. -/
def cSQ : Char := Char.ofNat 39

/-- Backtick character. -/
def cBT : Char := Char.ofNat 96

/-- Opening curly brace character. -/
def cOB : Char := Char.ofNat 123

/-- Closing curly brace character. -/
def cCB : Char := Char.ofNat 125

/-- Backslash character. -/
def cBS : Char := Char.ofNat 92

/-- Models JS String.prototype.endsWith. -/
def strEndsWith (s sfx : String) : Bool := sfx.data.isSuffixOf s.data

/-- Models JS String.prototype.slice(n) for a nonnegative index: drop the first n characters. -/
def strDropLeft (s : String) (n : Nat) : String := ⟨s.data.drop n⟩

/-- Drop the last n characters, the effect of replacing a matched n-character suffix by the empty string. -/
def strDropRight (s : String) (n : Nat) : String := ⟨s.data.take (s.data.length - n)⟩

/-- Models node path.join for a directory joined with a simple relative name: insert one separator. -/
def pathJoin (dir name : String) : String := dir ++ "/" ++ name

/-- Models relativePath.replace of a .puml suffix by .svg, as done by the renderer. -/
def swapPumlToSvg (p : String) : String :=
  if strEndsWith p ".puml" then strDropRight p 5 ++ ".svg" else p

/-- Models node path.dirname: everything before the last separator, or a dot when there is none. -/
def dirnameStr (p : String) : String :=
  if p.data.contains '/' then ⟨(((p.data.reverse).dropWhile (fun c => c ≠ '/')).drop 1).reverse⟩
  else "."

/-! Section 2: remote renderer, from src/lib/plantuml.mjs generateSvg.

The source reads the .puml file, encodes its text, fetches
SERVER_URL/encoded, throws on a non-ok response, and otherwise writes the
body to outputDir joined with the relative path whose .puml suffix is
swapped for .svg, creating parent directories first, and returns that
output path.  The encoder, the network and the filesystem are explicit
parameters; the result pairs the outcome with the final filesystem.
-/

/-- Response of the rendering endpoint: ok flag, numeric status, body text. -/
structure UmlResponse where
  ok : Bool
  status : Nat
  body : String
deriving DecidableEq, Repr

/-- Filesystem as explicit state: directories created so far and files written so far. -/
structure FileSys where
  dirs : List String
  files : List (String × String)
deriving DecidableEq, Repr

/-- Embeds generateSvg of src/lib/plantuml.mjs lines 45 to 66: build the request
url from the encoded content, fail with a message naming the relative path and
status on a non-ok response, otherwise create the parent directory, write the
body verbatim at the swapped-extension path under outputDir and return that path. -/
def generateSvgModel (encode : String → String) (net : String → UmlResponse)
    (serverUrl content relativePath outputDir : String) (fs : FileSys) :
    Except String String × FileSys :=
  let url := serverUrl ++ "/" ++ encode content
  let resp := net url
  if resp.ok = false then
    (Except.error ("Failed to fetch " ++ relativePath ++ ": " ++ toString resp.status), fs)
  else
    let outputPath := pathJoin outputDir (swapPumlToSvg relativePath)
    (Except.ok outputPath,
      { dirs := dirnameStr outputPath :: fs.dirs,
        files := (outputPath, resp.body) :: fs.files })

/-! Section 3: batch conversion driver and CLI entry point, from
scripts/generate-uml.mjs generateAll and the top-level statements.

generateAll discovers the files, returns early when none are found, and
otherwise fires one conversion per file, collecting the outcomes with
Promise.allSettled, which absorbs every rejection.  It prints the tally
and resolves normally in every case; per-file outcomes are an explicit
input here.  The script top level merely awaits generateAll; it never
sets process.exitCode, so the process exit status is zero whenever the
top-level await resolves and nonzero only when it rejects, which happens
exactly when discovery itself fails.
-/

/-- Outcome of one settled conversion promise. -/
inductive Settled where
  | fulfilled
  | rejected (msg : String)
deriving DecidableEq, Repr

/-- Discovery record for one .puml source file. -/
structure PumlFile where
  fullPath : String
  relativePath : String
  content : Option String
deriving DecidableEq, Repr

/-- Report printed by generateAll: the settled results array, and the
counts derived from it exactly as the script derives them. -/
structure BatchSummary where
  settledResults : List Settled
  succeeded : Nat
  failed : Nat
deriving DecidableEq, Repr

/-- Converts one conversion outcome into its settled form, as Promise.allSettled does. -/
def settleOutcome : Except String Unit → Settled
  | Except.ok _ => Settled.fulfilled
  | Except.error m => Settled.rejected m

/-- True on a rejected settled result, the filter used for the failure tally. -/
def isRejected : Settled → Bool
  | Settled.rejected _ => true
  | Settled.fulfilled => false

/-- Embeds generateAll of scripts/generate-uml.mjs lines 74 to 99: early return
with empty results when no file was discovered, otherwise one settled result per
file via Promise.allSettled, with the failure count from the rejected filter and
the success count printed as results.length minus failed.length. -/
def generateAll (files : List PumlFile) (outcome : PumlFile → Except String Unit) :
    BatchSummary :=
  if files.length = 0 then ⟨[], 0, 0⟩
  else
    let results := files.map (fun f => settleOutcome (outcome f))
    let failedResults := results.filter isRejected
    ⟨results, results.length - failedResults.length, failedResults.length⟩

/-- Embeds the process exit status of the build script run without watch mode:
the top level awaits generateAll, which rejects exactly when discovery rejects,
and no code path ever assigns process.exitCode; node therefore exits zero when
the await resolves and nonzero (one) when it rejects. -/
def mainExitCode (discovery : Except String (List PumlFile))
    (outcome : PumlFile → Except String Unit) : Nat :=
  match discovery with
  | Except.error _ => 1
  | Except.ok files =>
    let _ := generateAll files outcome
    0

/-! Section 4: model access facade, from src/lib/likec4.mjs getLikeC4Instance.

The module keeps one mutable variable holding the loaded instance.  A call
checks the variable; when empty it awaits LikeC4.fromWorkspace and stores the
result, otherwise it returns the stored handle.  Loaded handles are modeled
with the workspace path they were loaded from plus a distinct nonce per load.

Two embeddings are given.  The sequential one runs a whole call atomically,
which is what happens when no two calls overlap.  The race embedding splits a
call at its await point into a check step and a finish step, so interleavings
of two early callers can be examined; the cache variable is only assigned when
a load finishes, exactly as in the source, where the assignment happens after
the awaited expression completes.
-/

/-- Handle produced by one LikeC4.fromWorkspace load. -/
structure LikeC4Handle where
  workspacePath : String
  loadNonce : Nat
deriving DecidableEq, Repr

/-- Module-level state of src/lib/likec4.mjs: the cache variable and the number of loads started. -/
structure LikeC4State where
  instCache : Option LikeC4Handle
  loadCount : Nat
deriving DecidableEq, Repr

/-- Initial module state: empty cache, no load performed. -/
def initialLikeC4State : LikeC4State := ⟨none, 0⟩

/-- Embeds getLikeC4Instance of src/lib/likec4.mjs lines 25 to 33 as one atomic
call: on an empty cache, load from the given workspace path and store the fresh
handle; otherwise return the cached handle untouched, ignoring the argument. -/
def getLikeC4Instance (workspacePath : String) (st : LikeC4State) :
    LikeC4Handle × LikeC4State :=
  match st.instCache with
  | some h => (h, st)
  | none =>
    let h : LikeC4Handle := ⟨workspacePath, st.loadCount⟩
    (h, ⟨some h, st.loadCount + 1⟩)

/-- The two racing callers of the race embedding. -/
inductive Caller where
  | A
  | B
deriving DecidableEq, Repr

/-- State of the race embedding: the module cache and load counter, plus per
caller the pending load (path and nonce) started at its check step and the
handle its call returned, when finished. -/
structure RaceState where
  instCache : Option LikeC4Handle
  loadCount : Nat
  pendingA : Option (String × Nat)
  pendingB : Option (String × Nat)
  returnedA : Option LikeC4Handle
  returnedB : Option LikeC4Handle
deriving DecidableEq, Repr

/-- Initial race state: empty cache, nothing pending or returned. -/
def initialRaceState : RaceState := ⟨none, 0, none, none, none, none⟩

/-- One scheduler step: a caller performs its cache check (starting a load when
the cache is empty), or a caller finishes its started load (assigning the cache
and returning, as the source does after the await). -/
inductive RaceStep where
  | check (c : Caller) (workspacePath : String)
  | finishLoad (c : Caller)
deriving DecidableEq, Repr

/-- Pending load of the given caller. -/
def RaceState.pending (st : RaceState) : Caller → Option (String × Nat)
  | Caller.A => st.pendingA
  | Caller.B => st.pendingB

/-- Returned handle of the given caller. -/
def RaceState.returned (st : RaceState) : Caller → Option LikeC4Handle
  | Caller.A => st.returnedA
  | Caller.B => st.returnedB

/-- Update the pending load of the given caller. -/
def RaceState.setPending (st : RaceState) : Caller → Option (String × Nat) → RaceState
  | Caller.A, v => { st with pendingA := v }
  | Caller.B, v => { st with pendingB := v }

/-- Update the returned handle of the given caller. -/
def RaceState.setReturned (st : RaceState) : Caller → Option LikeC4Handle → RaceState
  | Caller.A, v => { st with returnedA := v }
  | Caller.B, v => { st with returnedB := v }

/-- Transition of the race embedding.  A check step of a caller that has not
yet acted reads the cache variable: when it holds a handle the call returns it
at once, and when it is empty the caller starts LikeC4.fromWorkspace, which
increments the load count; nothing is assigned to the cache yet.  A finish
step of a caller with a started load produces the fresh handle, assigns the
cache variable and returns that handle to the caller. -/
def raceStep (st : RaceState) : RaceStep → RaceState
  | RaceStep.check c p =>
    if (st.returned c).isSome || (st.pending c).isSome then st
    else
      match st.instCache with
      | some h => st.setReturned c (some h)
      | none => { st.setPending c (some (p, st.loadCount)) with loadCount := st.loadCount + 1 }
  | RaceStep.finishLoad c =>
    match st.pending c with
    | none => st
    | some (p, n) =>
      let h : LikeC4Handle := ⟨p, n⟩
      { (st.setPending c none).setReturned c (some h) with instCache := some h }

/-- Run a schedule of race steps from the initial state. -/
def runRace (steps : List RaceStep) : RaceState :=
  steps.foldl raceStep initialRaceState

/-! Section 5: directory trees and file discovery, from src/lib/plantuml.mjs
findPumlFiles.

A directory is a list of entries in the order the readdir call yields them;
that order carries no sorting guarantee, so it is simply the stored order of
the tree value.  Discovery walks the tree, recursing into directories and
recording every name with the .puml suffix together with its full path, its
path relative to the base directory obtained by slicing off the base prefix,
and optionally the file content.
-/

/-- One filesystem entry as yielded by readdir with file types: a file with
its content, or a subdirectory with its own entries in readdir order. -/
inductive Entry where
  | file (name content : String)
  | dir (name : String) (entries : List Entry)

mutual
/-- Embeds the body of the findPumlFiles loop of src/lib/plantuml.mjs lines 88
to 103 for a single entry: recurse into a directory, record a .puml file with
full path, sliced relative path and optional content, skip everything else. -/
def findPumlInEntry (dirPath baseDir : String) (includeContent : Bool) :
    Entry → List PumlFile
  | Entry.file n c =>
    if strEndsWith n ".puml" then
      [⟨pathJoin dirPath n, strDropLeft (pathJoin dirPath n) (baseDir.length + 1),
        if includeContent then some c else none⟩]
    else []
  | Entry.dir n es => findPumlInList (pathJoin dirPath n) baseDir includeContent es
/-- Embeds the findPumlFiles loop over the entries of one directory, in readdir order. -/
def findPumlInList (dirPath baseDir : String) (includeContent : Bool) :
    List Entry → List PumlFile
  | [] => []
  | e :: rest =>
    findPumlInEntry dirPath baseDir includeContent e ++
      findPumlInList dirPath baseDir includeContent rest
end

/-- Embeds findPumlFiles of src/lib/plantuml.mjs lines 83 to 106 at its top
level call, where the base directory defaults to the scanned directory. -/
def findPumlFiles (dir : String) (entries : List Entry) (includeContent : Bool) :
    List PumlFile :=
  findPumlInList dir dir includeContent entries

mutual
/-- Reference listing for the amended discovery claim: the relative path and
optional content of every .puml file of one entry, with relative paths built
directly from an accumulated prefix rather than by slicing the full path. -/
def specPumlEntry (pre : String) (includeContent : Bool) :
    Entry → List (String × Option String)
  | Entry.file n c =>
    if strEndsWith n ".puml" then
      [(pre ++ n, if includeContent then some c else none)]
    else []
  | Entry.dir n es => specPumlList (pre ++ n ++ "/") includeContent es
/-- Reference listing over a list of entries, in readdir order. -/
def specPumlList (pre : String) (includeContent : Bool) :
    List Entry → List (String × Option String)
  | [] => []
  | e :: rest => specPumlEntry pre includeContent e ++ specPumlList pre includeContent rest
end

/-- Lexicographic order on character lists, used to state sortedness of paths and labels. -/
def lexLe : List Char → List Char → Bool
  | [], _ => true
  | _ :: _, [] => false
  | a :: as, b :: bs => if a < b then true else if b < a then false else lexLe as bs

/-- Sortedness of a discovery result by relative path. -/
def pumlListSorted (l : List PumlFile) : Prop :=
  List.Pairwise (fun f g => lexLe f.relativePath.data g.relativePath.data = true) l

/-! Section 6: navigation generator, from astro.config.mjs generateUmlSidebar.

Each directory level collects one item per kept entry: a group for every
subdirectory whose recursive result is nonempty, and a leaf for every .puml
file, whose label is the name with the first occurrence of .puml removed and
whose link is the url base joined with the relative path.  The collected
items of the level, groups and leaves together, are then sorted by the
localeCompare comparator on labels.  The comparator is modeled for ASCII
labels at primary collation strength, that is case-insensitively, and the
implementation-defined stable comparison sort of Array.prototype.sort is
modeled as a stable insertion sort.
-/

/-- Sidebar node: a leaf with label and link, or a group with label and items. -/
inductive NavNode where
  | leaf (label link : String)
  | group (label : String) (items : List NavNode)

/-- Label of a sidebar node, the sort key source. -/
def navLabel : NavNode → String
  | NavNode.leaf l _ => l
  | NavNode.group l _ => l

/-- ASCII lower casing of one character. -/
def toLowerChar (c : Char) : Char :=
  if 'A' ≤ c ∧ c ≤ 'Z' then Char.ofNat (c.toNat + 32) else c

/-- Characters of a string, lower cased. -/
def lowerChars (s : String) : List Char := s.data.map toLowerChar

/-- Models the a.label.localeCompare(b.label) comparator for ASCII labels:
default locale collation compares letters case-insensitively at primary
strength, so the nonpositive-comparator relation used by the sort is the
lexicographic order of the lower cased labels. -/
def navLe (a b : NavNode) : Bool := lexLe (lowerChars (navLabel a)) (lowerChars (navLabel b))

/-- Stable insertion of a node into a sorted node list. -/
def insertNav (a : NavNode) : List NavNode → List NavNode
  | [] => [a]
  | b :: bs => if navLe a b then a :: b :: bs else b :: insertNav a bs

/-- Models items.sort with the localeCompare comparator: a stable comparison sort. -/
def sortNav : List NavNode → List NavNode
  | [] => []
  | a :: as => insertNav a (sortNav as)

/-- Removes the first occurrence of a pattern from a character list, the
effect of JS String.prototype.replace with a plain string pattern. -/
def removeFirst (pat : List Char) : List Char → List Char
  | [] => []
  | c :: rest =>
    if pat.isPrefixOf (c :: rest) then (c :: rest).drop pat.length
    else c :: removeFirst pat rest

/-- Models baseDir.replace of a leading dot-slash by the empty string. -/
def stripLeadingDotSlash (s : String) : String :=
  if ("./".data).isPrefixOf s.data then ⟨s.data.drop 2⟩ else s

/-- Models relativePath.replace of a trailing .puml by the empty string. -/
def stripPumlSuffix (p : String) : String :=
  if strEndsWith p ".puml" then strDropRight p 5 else p

mutual
/-- Embeds the body of the generateUmlSidebar loop of astro.config.mjs lines
192 to 214 for one entry: a subdirectory becomes a group only when its
recursive items are nonempty, and a .puml file becomes a leaf whose label
drops the first .puml occurrence and whose link joins the url base with the
full path stripped of the normalized base prefix and the .puml suffix. -/
def sidebarEntry (dirPath baseDir urlBase : String) : Entry → List NavNode
  | Entry.dir n es =>
    let subItems := sortNav (sidebarItems (pathJoin dirPath n) baseDir urlBase es)
    if subItems.length > 0 then [NavNode.group n subItems] else []
  | Entry.file n _ =>
    if strEndsWith n ".puml" then
      let relativePath :=
        stripPumlSuffix
          ⟨removeFirst ((stripLeadingDotSlash baseDir) ++ "/").data (pathJoin dirPath n).data⟩
      [NavNode.leaf ⟨removeFirst (".puml".data) n.data⟩ (urlBase ++ "/" ++ relativePath)]
    else []
/-- Embeds the generateUmlSidebar loop over the entries of one directory. -/
def sidebarItems (dirPath baseDir urlBase : String) : List Entry → List NavNode
  | [] => []
  | e :: rest =>
    sidebarEntry dirPath baseDir urlBase e ++ sidebarItems dirPath baseDir urlBase rest
end

/-- Embeds generateUmlSidebar of astro.config.mjs lines 187 to 220 at one
directory: collect the items of the level and sort them, groups and leaves
together, by the label comparator. -/
def generateUmlSidebar (dir : String) (entries : List Entry) (urlBase : String) :
    List NavNode :=
  sortNav (sidebarItems dir dir urlBase entries)

/-- Case-insensitive label order between two nodes, as a proposition. -/
def ciLabelLe (a b : NavNode) : Prop :=
  lexLe (lowerChars (navLabel a)) (lowerChars (navLabel b)) = true

mutual
/-- A node all of whose nested sibling lists are sorted case-insensitively by
label, groups and leaves interleaved in the one ordering. -/
def nodeSortedCI : NavNode → Prop
  | NavNode.leaf _ _ => True
  | NavNode.group _ items => List.Pairwise ciLabelLe items ∧ allSortedCI items
/-- Every node of the list satisfies nodeSortedCI. -/
def allSortedCI : List NavNode → Prop
  | [] => True
  | x :: xs => nodeSortedCI x ∧ allSortedCI xs
end

/-- A sibling list sorted case-insensitively at this level and at every nested level. -/
def sidebarSortedCI (l : List NavNode) : Prop :=
  List.Pairwise ciLabelLe l ∧ allSortedCI l

mutual
/-- A node whose every nested group has at least one item. -/
def nodeGood : NavNode → Prop
  | NavNode.leaf _ _ => True
  | NavNode.group _ items => items ≠ [] ∧ allGood items
/-- Every node of the list satisfies nodeGood. -/
def allGood : List NavNode → Prop
  | [] => True
  | x :: xs => nodeGood x ∧ allGood xs
end

mutual
/-- All descendant nodes of a node, itself included. -/
def nodeDescs : NavNode → List NavNode
  | NavNode.leaf l k => [NavNode.leaf l k]
  | NavNode.group l items => NavNode.group l items :: listDescs items
/-- All descendant nodes of the nodes of a list. -/
def listDescs : List NavNode → List NavNode
  | [] => []
  | x :: xs => nodeDescs x ++ listDescs xs
end

/-! Section 7: reference scanner, from src/lib/plantuml.mjs
findDiagramReferences and scanDocsDir.

The scanner builds the pattern by regex-escaping the diagram identifier and
searching each markdown page for an occurrence of: the literal text
consisting of an opening angle bracket and the word PlantUML; then any run
of characters other than a closing angle bracket; then one whitespace
character; then the literal text file and an equals sign; then one or more
characters that are a double quote, a single quote, a backtick or an opening
brace; then an optional double quote; then the escaped identifier; then one
or more characters that are a double quote, a single quote, a backtick or a
closing brace.  Because escaping makes every identifier character literal,
the matcher below takes the identifier verbatim.  It is an executable
backtracking matcher for exactly this pattern shape, searching every start
position.
-/

/-- Character class of the quote-opening bracket expression of the pattern. -/
def quoteOpenChar (c : Char) : Bool := c = cDQ || c = cSQ || c = cBT || c = cOB

/-- Character class of the quote-closing bracket expression of the pattern. -/
def quoteCloseChar (c : Char) : Bool := c = cDQ || c = cSQ || c = cBT || c = cCB

/-- Whitespace class of the pattern, restricted to the ASCII whitespace characters. -/
def isWsChar (c : Char) : Bool :=
  c = ' ' || c = '\t' || c = '\n' || c = '\r' || c = Char.ofNat 11 || c = Char.ofNat 12

/-- Characters admissible in a diagram or view identifier: alphanumeric
characters plus the path and name punctuation the repository uses. -/
def isIdChar (c : Char) : Bool :=
  c.isAlphanum || c = '/' || c = '-' || c = '_' || c = '.'

/-- Whether the first character exists and closes a quote. -/
def headQuoteClose : List Char → Bool
  | [] => false
  | c :: _ => quoteCloseChar c

/-- Checks the tail of the pattern at the current position: the literal
identifier immediately followed by at least one quote-closing character. -/
def checkTarget (t l : List Char) : Bool :=
  t.isPrefixOf l && headQuoteClose (l.drop t.length)

/-- Checks one double quote and then the identifier tail. -/
def dqThenTarget (t : List Char) : List Char → Bool
  | [] => false
  | c :: rest => c = cDQ && checkTarget t rest

/-- Checks the optional double quote of the pattern and then the identifier tail. -/
def afterOpenQuotes (t l : List Char) : Bool :=
  checkTarget t l || dqThenTarget t l

/-- Consumes one or more quote-opening characters, trying the rest of the
pattern after each one consumed. -/
def quoteRun (t : List Char) : List Char → Bool
  | [] => false
  | c :: rest => quoteOpenChar c && (afterOpenQuotes t rest || quoteRun t rest)

/-- Scans forward over characters other than the closing angle bracket,
trying at every whitespace character whether the literal attribute text and
the quoted identifier follow. -/
def attrScan (t : List Char) : List Char → Bool
  | [] => false
  | c :: rest =>
    if c = '>' then false
    else
      (isWsChar c && ("file=".data.isPrefixOf rest) && quoteRun t (rest.drop 5)) ||
        attrScan t rest

/-- Whether the pattern matches starting exactly at this position. -/
def matchPlantAt (t l : List Char) : Bool :=
  "<PlantUML".data.isPrefixOf l && attrScan t (l.drop 9)

/-- Whether the pattern matches anywhere in the text, the regex test call of
findDiagramReferences. -/
def plantRegexTest (t : List Char) : List Char → Bool
  | [] => false
  | c :: rest => matchPlantAt t (c :: rest) || plantRegexTest t rest

/-- Models relativePath.replace of a trailing .md or .mdx by the empty
string; the optional final x of the regex matches greedily. -/
def dropMdExt (p : String) : String :=
  if strEndsWith p ".mdx" then strDropRight p 4
  else if strEndsWith p ".md" then strDropRight p 3
  else p

/-- Models the replace of a trailing slash-index segment by the empty string. -/
def collapseIndexSuffix (p : String) : String :=
  if strEndsWith p "/index" then strDropRight p 6 else p

/-- Models the global replace of backslashes by forward slashes. -/
def normalizeSlashes (p : String) : String :=
  ⟨p.data.map (fun c => if c = cBS then '/' else c)⟩

/-- Embeds the slug computation of scanDocsDir, src/lib/plantuml.mjs lines
162 to 166: strip the markdown extension, collapse a trailing slash-index
segment to the parent path, normalize path separators. -/
def computeSlug (relativePath : String) : String :=
  normalizeSlashes (collapseIndexSuffix (dropMdExt relativePath))

/-- Reference record produced by the scanner for one matching page. -/
structure DiagramReference where
  filePath : String
  title : String
  slug : String
deriving DecidableEq, Repr

/-- Builds the reference record of a matching page: title from the
frontmatter extraction with the file name, extension stripped, as fallback,
and the slug computed from the relative path.  The frontmatter title regex
is not modeled; the extraction is an explicit parameter. -/
def mkReference (extractTitle : String → Option String)
    (name content relativePath : String) : DiagramReference :=
  ⟨relativePath,
    match extractTitle content with
    | some t => t
    | none => dropMdExt name,
    computeSlug relativePath⟩

mutual
/-- Embeds the body of the scanDocsDir loop of src/lib/plantuml.mjs lines
145 to 174 for one entry: recurse into directories, and for a markdown file
whose content passes the regex test, record the reference. -/
def scanEntry (xt : String → Option String) (t : List Char) (dirPath baseDir : String) :
    Entry → List DiagramReference
  | Entry.dir n es => scanList xt t (pathJoin dirPath n) baseDir es
  | Entry.file n c =>
    if strEndsWith n ".mdx" || strEndsWith n ".md" then
      if plantRegexTest t c.data then
        [mkReference xt n c (strDropLeft (pathJoin dirPath n) (baseDir.length + 1))]
      else []
    else []
/-- Embeds the scanDocsDir loop over the entries of one directory. -/
def scanList (xt : String → Option String) (t : List Char) (dirPath baseDir : String) :
    List Entry → List DiagramReference
  | [] => []
  | e :: rest => scanEntry xt t dirPath baseDir e ++ scanList xt t dirPath baseDir rest
end

/-- Embeds findDiagramReferences of src/lib/plantuml.mjs lines 121 to 133:
scan the docs tree with the pattern built from the escaped identifier, with
the docs directory as base for relative paths. -/
def findDiagramReferences (xt : String → Option String) (diagramFile : String)
    (docsDir : String) (entries : List Entry) : List DiagramReference :=
  scanList xt diagramFile.data docsDir docsDir entries

/-! Section 8: structured page model for the scanner claims.

A page is a sequence of plain text runs and embed constructs.  An embed uses
one of the three quoting variants named by the specification: double quotes,
single quotes, or a brace-wrapped template literal.  Rendering produces the
exact markup text an author would write; well-formedness asks that plain
text contains no opening angle bracket and identifiers are nonempty runs of
identifier characters.
-/

/-- The three quoting variants of the embed attribute value. -/
inductive QuoteVariant where
  | double
  | single
  | braceTemplate
deriving DecidableEq, Repr

/-- Characters opening the attribute value in each variant. -/
def openQuote : QuoteVariant → List Char
  | QuoteVariant.double => [cDQ]
  | QuoteVariant.single => [cSQ]
  | QuoteVariant.braceTemplate => [cOB, cBT]

/-- Characters closing the attribute value in each variant. -/
def closeQuote : QuoteVariant → List Char
  | QuoteVariant.double => [cDQ]
  | QuoteVariant.single => [cSQ]
  | QuoteVariant.braceTemplate => [cBT, cCB]

/-- One component of a page: a plain text run, or an embed of a diagram by identifier. -/
inductive PageItem where
  | plainText (t : String)
  | plantEmbed (v : QuoteVariant) (id : String)

/-- Markup text of one page component. -/
def renderItem : PageItem → List Char
  | PageItem.plainText t => t.data
  | PageItem.plantEmbed v id =>
    "<PlantUML file=".data ++ (openQuote v ++ (id.data ++ (closeQuote v ++ " />".data)))

/-- Markup text of a page. -/
def renderItems : List PageItem → List Char
  | [] => []
  | i :: rest => renderItem i ++ renderItems rest

/-- Markup text of a page as a string, the file content the scanner reads. -/
def renderPage (items : List PageItem) : String := ⟨renderItems items⟩

/-- Well-formed page component: plain text free of opening angle brackets,
embeds with nonempty identifiers over the identifier alphabet. -/
def wfItemB : PageItem → Bool
  | PageItem.plainText t => t.data.all (fun c => !(c = '<'))
  | PageItem.plantEmbed _ id => (!id.data.isEmpty) && id.data.all isIdChar

/-- Well-formed page: all components well formed. -/
def wfItemsB (l : List PageItem) : Bool := l.all wfItemB

/-- Well-formed target identifier: nonempty over the identifier alphabet. -/
def wfTargetB (t : List Char) : Bool := (!t.isEmpty) && t.all isIdChar

/-- Whether one page component embeds exactly the given identifier. -/
def embedHeadTest (t : List Char) : PageItem → Bool
  | PageItem.plantEmbed _ id => id.data == t
  | PageItem.plainText _ => false

/-- Whether some component of the page embeds exactly the given identifier. -/
def containsEmbed (t : List Char) (items : List PageItem) : Bool :=
  items.any (embedHeadTest t)

/-- Structured docs tree: markdown pages with structured content, other
files, and directories. -/
inductive PageTree where
  | page (name : String) (items : List PageItem)
  | other (name content : String)
  | dir (name : String) (entries : List PageTree)

mutual
/-- Rendering of a structured docs tree into the entry tree the scanner reads. -/
def pageToEntry : PageTree → Entry
  | PageTree.page n items => Entry.file n (renderPage items)
  | PageTree.other n c => Entry.file n c
  | PageTree.dir n es => Entry.dir n (pageForest es)
/-- Rendering of a list of structured docs trees. -/
def pageForest : List PageTree → List Entry
  | [] => []
  | p :: rest => pageToEntry p :: pageForest rest
end

mutual
/-- Well-formed docs tree: pages well formed, and files that are not pages
do not carry a markdown name. -/
def wfPageTree : PageTree → Bool
  | PageTree.page _ items => wfItemsB items
  | PageTree.other n _ => !(strEndsWith n ".mdx") && !(strEndsWith n ".md")
  | PageTree.dir _ es => wfPageForest es
/-- Well-formed docs forest. -/
def wfPageForest : List PageTree → Bool
  | [] => true
  | p :: rest => wfPageTree p && wfPageForest rest
end

mutual
/-- Reference listing the scanner is claimed to produce: exactly the
markdown pages containing an embed of the identifier, with relative paths
accumulated from the base. -/
def specRefsTree (xt : String → Option String) (t : List Char) (pre : String) :
    PageTree → List DiagramReference
  | PageTree.page n items =>
    if (strEndsWith n ".mdx" || strEndsWith n ".md") && containsEmbed t items then
      [mkReference xt n (renderPage items) (pre ++ n)]
    else []
  | PageTree.other _ _ => []
  | PageTree.dir n es => specRefsForest xt t (pre ++ n ++ "/") es
/-- Reference listing over a docs forest. -/
def specRefsForest (xt : String → Option String) (t : List Char) (pre : String) :
    List PageTree → List DiagramReference
  | [] => []
  | p :: rest => specRefsTree xt t pre p ++ specRefsForest xt t pre rest
end

/-- Concrete docs forest exercising all three quoting variants, a page
embedding a different identifier, a nested directory and a non-page file. -/
def demoDocsForest : List PageTree :=
  [PageTree.page "a.mdx" [PageItem.plantEmbed QuoteVariant.double "v1"],
   PageTree.dir "sub"
     [PageTree.page "b.md"
       [PageItem.plainText "intro ",
        PageItem.plantEmbed QuoteVariant.braceTemplate "v1"]],
   PageTree.page "c.mdx" [PageItem.plantEmbed QuoteVariant.single "v2"],
   PageTree.other "d.txt" "plain"]

/-- Segments joined with forward slashes, for stating the slug claim. -/
def joinSegs : List String → String
  | [] => ""
  | [s] => s
  | s :: rest => s ++ "/" ++ joinSegs rest

/-! Theorems start here. -/

/-- C5: for every discovered file list and every assignment of per-file
outcomes, the batch driver is a total function (it never throws: every
rejection is absorbed into the settled results), the settled results are
exactly one per discovered file with each entry determined by that file's
own outcome alone, so no failure cancels or blocks any other conversion,
and the reported succeeded plus failed counts sum to the discovered file
count. -/
theorem generateAll_counts_and_independent (files : List PumlFile)
    (outcome : PumlFile → Except String Unit) :
    (generateAll files outcome).settledResults =
      files.map (fun f => settleOutcome (outcome f)) ∧
    (generateAll files outcome).succeeded + (generateAll files outcome).failed = files.length := by
  constructor
  · by_cases h : files.length = 0
    · have : files = [] := List.length_eq_zero.mp h
      simp [generateAll, this]
    · simp [generateAll, h]
  · by_cases h : files.length = 0
    · simp [generateAll, h]
    · have hle : ((files.map fun f => settleOutcome (outcome f)).filter isRejected).length ≤
        (files.map fun f => settleOutcome (outcome f)).length := List.length_filter_le _ _
      simp only [generateAll, h, if_false]
      simp only [List.length_map] at hle ⊢
      omega

/-- C1 counterexample: a run whose single discovered file fails to convert
still ends with process exit status zero, contradicting the claim that the
exit status is nonzero when at least one conversion failed. -/
theorem mainExitCode_zero_despite_failure :
    (generateAll [(⟨"/uml/a.puml", "a.puml", none⟩ : PumlFile)]
      (fun _ => Except.error "Failed to fetch a.puml: 500")).failed = 1 ∧
    mainExitCode (Except.ok [(⟨"/uml/a.puml", "a.puml", none⟩ : PumlFile)])
      (fun _ => Except.error "Failed to fetch a.puml: 500") = 0 := by
  constructor
  · rfl
  · rfl

/-- C1 amended: the build script entry point run without watch mode exits with
status zero whenever file discovery succeeds, regardless of how many per-file
conversions failed (failures are only logged), and exits nonzero exactly when
discovery itself fails, since the script never assigns process.exitCode and
Promise.allSettled absorbs every per-file rejection. -/
theorem mainExitCode_ignores_conversion_failures
    (outcome : PumlFile → Except String Unit) :
    (∀ files : List PumlFile, mainExitCode (Except.ok files) outcome = 0) ∧
    (∀ e : String, mainExitCode (Except.error e) outcome = 1) := by
  exact ⟨fun _ => rfl, fun _ => rfl⟩

/-- C4: for every render call, when the response is not ok the renderer fails
with a message naming the relative path and the status code and the filesystem
is unchanged (no output file is written), and when the response is ok the
response body is written verbatim at outputDir joined with the relative path
whose .puml suffix is swapped for .svg, the parent directory is created, and
that output path is returned. -/
theorem generateSvg_spec (encode : String → String) (net : String → UmlResponse)
    (serverUrl content relativePath outputDir : String) (fs : FileSys) :
    ((net (serverUrl ++ "/" ++ encode content)).ok = false →
      generateSvgModel encode net serverUrl content relativePath outputDir fs =
        (Except.error ("Failed to fetch " ++ relativePath ++ ": " ++
          toString (net (serverUrl ++ "/" ++ encode content)).status), fs)) ∧
    ((net (serverUrl ++ "/" ++ encode content)).ok = true →
      generateSvgModel encode net serverUrl content relativePath outputDir fs =
        (Except.ok (pathJoin outputDir (swapPumlToSvg relativePath)),
          { dirs := dirnameStr (pathJoin outputDir (swapPumlToSvg relativePath)) :: fs.dirs,
            files := (pathJoin outputDir (swapPumlToSvg relativePath),
                      (net (serverUrl ++ "/" ++ encode content)).body) :: fs.files })) := by
  constructor
  · intro h
    simp [generateSvgModel, h]
  · intro h
    simp [generateSvgModel, h]

/-- C4 witness: the renderer evaluated at one concrete failing response and one
concrete successful response, with both hypotheses discharged by computation. -/
theorem generateSvg_spec_witness :
    (generateSvgModel (fun s => s) (fun _ => ⟨false, 500, ""⟩)
        "https://srv" "@startuml" "a/b.puml" "/out" ⟨[], []⟩ =
      (Except.error ("Failed to fetch " ++ "a/b.puml" ++ ": " ++ toString (500 : Nat)),
        ⟨[], []⟩)) ∧
    (generateSvgModel (fun s => s) (fun _ => ⟨true, 200, "svgbody"⟩)
        "https://srv" "@startuml" "a/b.puml" "/out" ⟨[], []⟩ =
      (Except.ok (pathJoin "/out" (swapPumlToSvg "a/b.puml")),
        { dirs := [dirnameStr (pathJoin "/out" (swapPumlToSvg "a/b.puml"))],
          files := [(pathJoin "/out" (swapPumlToSvg "a/b.puml"), "svgbody")] })) := by
  constructor
  · exact (generateSvg_spec (fun s => s) (fun _ => ⟨false, 500, ""⟩)
      "https://srv" "@startuml" "a/b.puml" "/out" ⟨[], []⟩).1 rfl
  · exact (generateSvg_spec (fun s => s) (fun _ => ⟨true, 200, "svgbody"⟩)
      "https://srv" "@startuml" "a/b.puml" "/out" ⟨[], []⟩).2 rfl

/-- C10: after the first load, the workspace path argument is ignored: starting
from the initial module state, a first call with one path and a second call
with any other path return the identical cached handle, which records the first
path, and only one load has occurred. -/
theorem getLikeC4Instance_path_ignored_after_first (p1 p2 : String) :
    (getLikeC4Instance p2 (getLikeC4Instance p1 initialLikeC4State).2).1 =
      (getLikeC4Instance p1 initialLikeC4State).1 ∧
    (getLikeC4Instance p1 initialLikeC4State).1.workspacePath = p1 ∧
    (getLikeC4Instance p2 (getLikeC4Instance p1 initialLikeC4State).2).2.loadCount = 1 ∧
    (getLikeC4Instance p2 (getLikeC4Instance p1 initialLikeC4State).2).2 =
      (getLikeC4Instance p1 initialLikeC4State).2 := by
  exact ⟨rfl, rfl, rfl, rfl⟩

/-- C2: evaluation of the facade at the racing schedule in which both early
callers pass their cache check before either load completes.  The underlying
load then occurs twice, not once, and the two callers obtain two distinct
handles, so the load-once invariant claimed for racing callers fails on the
code: the cache variable is only assigned after the awaited load completes. -/
theorem getLikeC4Instance_race_two_loads :
    (runRace [RaceStep.check Caller.A "/ws", RaceStep.check Caller.B "/ws",
      RaceStep.finishLoad Caller.A, RaceStep.finishLoad Caller.B]).loadCount = 2 ∧
    (runRace [RaceStep.check Caller.A "/ws", RaceStep.check Caller.B "/ws",
      RaceStep.finishLoad Caller.A, RaceStep.finishLoad Caller.B]).returnedA =
        some ⟨"/ws", 0⟩ ∧
    (runRace [RaceStep.check Caller.A "/ws", RaceStep.check Caller.B "/ws",
      RaceStep.finishLoad Caller.A, RaceStep.finishLoad Caller.B]).returnedB =
        some ⟨"/ws", 1⟩ ∧
    (runRace [RaceStep.check Caller.A "/ws", RaceStep.check Caller.B "/ws",
      RaceStep.finishLoad Caller.A, RaceStep.finishLoad Caller.B]).returnedA ≠
      (runRace [RaceStep.check Caller.A "/ws", RaceStep.check Caller.B "/ws",
        RaceStep.finishLoad Caller.A, RaceStep.finishLoad Caller.B]).returnedB := by
  refine ⟨rfl, rfl, rfl, ?_⟩
  decide

/-- Characters of a joined path are the directory characters, a separator, and the name characters. -/
theorem pathJoin_data (dir name : String) :
    (pathJoin dir name).data = dir.data ++ '/' :: name.data := by
  show ((dir ++ "/") ++ name).data = _
  rw [String.data_append, String.data_append]
  simp

/-- Dropping the base prefix and its separator from a joined path leaves the relative part. -/
theorem drop_base_prefix (dirBase : String) (rest : List Char) :
    (dirBase.data ++ '/' :: rest).drop (dirBase.length + 1) = rest := by
  have h1 : dirBase.data ++ '/' :: rest = (dirBase.data ++ ['/']) ++ rest := by simp
  have hl : (dirBase.data ++ ['/']).length = dirBase.length + 1 := by
    rw [List.length_append]
    rfl
  rw [h1, ← hl, List.drop_left]

mutual
/-- Discovery on one entry agrees with the prefix-built reference listing. -/
theorem findPumlInEntry_spec (dirBase : String) (ic : Bool) (e : Entry)
    (pre dirPath : String)
    (h : dirPath.data ++ ['/'] = dirBase.data ++ '/' :: pre.data) :
    findPumlInEntry dirPath dirBase ic e =
      (specPumlEntry pre ic e).map
        (fun rc => ⟨pathJoin dirBase rc.1, rc.1, rc.2⟩) := by
  cases e with
  | file n c =>
    by_cases hp : strEndsWith n ".puml"
    · have hfull : pathJoin dirPath n = pathJoin dirBase (pre ++ n) := by
        apply String.ext
        rw [pathJoin_data, pathJoin_data, String.data_append]
        calc dirPath.data ++ '/' :: n.data
            = (dirPath.data ++ ['/']) ++ n.data := by simp
          _ = (dirBase.data ++ '/' :: pre.data) ++ n.data := by rw [h]
          _ = dirBase.data ++ '/' :: (pre.data ++ n.data) := by simp
      have hrel : strDropLeft (pathJoin dirPath n) (dirBase.length + 1) = pre ++ n := by
        apply String.ext
        show (pathJoin dirPath n).data.drop (dirBase.length + 1) = (pre ++ n).data
        rw [hfull, pathJoin_data, String.data_append, drop_base_prefix]
      simp only [findPumlInEntry, specPumlEntry, hp, if_true, List.map_cons, List.map_nil]
      rw [hrel, hfull]
    · simp [findPumlInEntry, specPumlEntry, hp]
  | dir n es =>
    have h2 : (pathJoin dirPath n).data ++ ['/'] =
        dirBase.data ++ '/' :: (pre ++ n ++ "/").data := by
      rw [pathJoin_data, String.data_append, String.data_append]
      calc (dirPath.data ++ '/' :: n.data) ++ ['/']
          = (dirPath.data ++ ['/']) ++ (n.data ++ ['/']) := by simp
        _ = (dirBase.data ++ '/' :: pre.data) ++ (n.data ++ ['/']) := by rw [h]
        _ = dirBase.data ++ '/' :: (pre.data ++ n.data ++ ("/" : String).data) := by simp
    show findPumlInList (pathJoin dirPath n) dirBase ic es = _
    rw [findPumlInList_spec dirBase ic es (pre ++ n ++ "/") (pathJoin dirPath n) h2]
    rfl
/-- Discovery on an entry list agrees with the prefix-built reference listing. -/
theorem findPumlInList_spec (dirBase : String) (ic : Bool) (es : List Entry)
    (pre dirPath : String)
    (h : dirPath.data ++ ['/'] = dirBase.data ++ '/' :: pre.data) :
    findPumlInList dirPath dirBase ic es =
      (specPumlList pre ic es).map
        (fun rc => ⟨pathJoin dirBase rc.1, rc.1, rc.2⟩) := by
  cases es with
  | nil => rfl
  | cons e rest =>
    show findPumlInEntry dirPath dirBase ic e ++ findPumlInList dirPath dirBase ic rest = _
    rw [findPumlInEntry_spec dirBase ic e pre dirPath h,
      findPumlInList_spec dirBase ic rest pre dirPath h]
    show _ = (specPumlEntry pre ic e ++ specPumlList pre ic rest).map _
    rw [List.map_append]
end

/-- C6 amended: file discovery returns, in depth-first readdir traversal
order, exactly the metadata of the files matching the .puml suffix filter:
their relative paths are the paths accumulated from the base directory, the
full path is the base joined with the relative path, and content is included
exactly when requested.  No sorting is applied, so the output order is the
traversal order of the underlying directory listing. -/
theorem findPumlFiles_traversal_spec (dir : String) (entries : List Entry) (ic : Bool) :
    findPumlFiles dir entries ic =
      (specPumlList "" ic entries).map
        (fun rc => ⟨pathJoin dir rc.1, rc.1, rc.2⟩) := by
  apply findPumlInList_spec
  simp

/-- C6 counterexample: a directory whose listing yields b.puml before a.puml
makes discovery return the two records in that order, which is not sorted by
relative path, refuting the claim that the returned list is sorted for every
input tree. -/
theorem findPumlFiles_not_sorted :
    (findPumlFiles "/uml" [Entry.file "b.puml" "", Entry.file "a.puml" ""] false).map
        (fun f => f.relativePath) = ["b.puml", "a.puml"] ∧
    ¬ pumlListSorted
        (findPumlFiles "/uml" [Entry.file "b.puml" "", Entry.file "a.puml" ""] false) := by
  constructor
  · rfl
  · intro hsorted
    have h := List.rel_of_pairwise_cons hsorted (List.mem_singleton.mpr rfl)
    exact absurd h (by decide)

/-- Totality of the lexicographic character order. -/
theorem lexLe_total : ∀ x y : List Char, lexLe x y = true ∨ lexLe y x = true
  | [], _ => Or.inl rfl
  | _ :: _, [] => Or.inr rfl
  | a :: as, b :: bs => by
    rcases lt_trichotomy a b with h | rfl | h
    · left
      simp [lexLe, h]
    · rcases lexLe_total as bs with ih | ih
      · left
        simp [lexLe, lt_irrefl, ih]
      · right
        simp [lexLe, lt_irrefl, ih]
    · right
      simp [lexLe, h]

/-- Transitivity of the lexicographic character order. -/
theorem lexLe_trans : ∀ x y z : List Char,
    lexLe x y = true → lexLe y z = true → lexLe x z = true
  | [], _, _, _, _ => rfl
  | _ :: _, [], _, h1, _ => by simp [lexLe] at h1
  | _ :: _, _ :: _, [], _, h2 => by simp [lexLe] at h2
  | a :: as, b :: bs, c :: cs, h1, h2 => by
    rcases lt_trichotomy a b with hab | rfl | hab
    · rcases lt_trichotomy b c with hbc | rfl | hbc
      · simp [lexLe, hab.trans hbc]
      · simp [lexLe, hab]
      · rw [lexLe, if_neg (asymm hbc), if_pos hbc] at h2
        exact absurd h2 (by simp)
    · rcases lt_trichotomy a c with hac | rfl | hac
      · simp [lexLe, hac]
      · rw [lexLe, if_neg (lt_irrefl a), if_neg (lt_irrefl a)] at h1 h2 ⊢
        exact lexLe_trans as bs cs h1 h2
      · rw [lexLe, if_neg (asymm hac), if_pos hac] at h2
        exact absurd h2 (by simp)
    · rw [lexLe, if_neg (asymm hab), if_pos hab] at h1
      exact absurd h1 (by simp)

/-- Membership in an insertion result. -/
theorem mem_insertNav (a x : NavNode) :
    ∀ l : List NavNode, x ∈ insertNav a l ↔ x = a ∨ x ∈ l
  | [] => by simp [insertNav]
  | b :: bs => by
    by_cases hab : navLe a b = true
    · simp [insertNav, hab]
    · simp only [insertNav]
      rw [if_neg hab]
      simp only [List.mem_cons, mem_insertNav a x bs]
      tauto

/-- Membership in a sort result. -/
theorem mem_sortNav (x : NavNode) : ∀ l : List NavNode, x ∈ sortNav l ↔ x ∈ l
  | [] => Iff.rfl
  | a :: as => by
    simp only [sortNav, mem_insertNav, mem_sortNav x as, List.mem_cons]

/-- Insertion preserves pairwise sortedness by the label comparator. -/
theorem pairwise_insertNav (a : NavNode) :
    ∀ l : List NavNode, List.Pairwise ciLabelLe l →
      List.Pairwise ciLabelLe (insertNav a l)
  | [], _ => List.pairwise_singleton _ _
  | b :: bs, hp => by
    rcases List.pairwise_cons.mp hp with ⟨hb, hbs⟩
    by_cases hab : navLe a b = true
    · simp only [insertNav, hab, if_true]
      refine List.pairwise_cons.mpr ⟨?_, hp⟩
      intro x hx
      rcases List.mem_cons.mp hx with rfl | hx
      · exact hab
      · exact lexLe_trans _ _ _ hab (hb x hx)
    · simp only [insertNav, hab, if_false]
      refine List.pairwise_cons.mpr ⟨?_, pairwise_insertNav a bs hbs⟩
      intro x hx
      rcases (mem_insertNav a x bs).mp hx with hxa | hx
      · subst hxa
        rcases lexLe_total (lowerChars (navLabel x)) (lowerChars (navLabel b)) with h | h
        · exact absurd h hab
        · exact h
      · exact hb x hx

/-- The sort produces a list pairwise sorted by the label comparator. -/
theorem pairwise_sortNav : ∀ l : List NavNode, List.Pairwise ciLabelLe (sortNav l)
  | [] => List.Pairwise.nil
  | a :: as => pairwise_insertNav a _ (pairwise_sortNav as)

/-- The recursive all-sorted predicate is membership of sorted nodes. -/
theorem allSortedCI_iff : ∀ l : List NavNode, allSortedCI l ↔ ∀ x ∈ l, nodeSortedCI x
  | [] => by simp [allSortedCI]
  | x :: xs => by
    simp [allSortedCI, allSortedCI_iff xs]

mutual
/-- Every node emitted for one entry has all nested levels sorted. -/
theorem sidebarEntry_nodes_sorted (d b u : String) (e : Entry) :
    ∀ x ∈ sidebarEntry d b u e, nodeSortedCI x := by
  cases e with
  | dir n es =>
    intro x hx
    simp only [sidebarEntry] at hx
    split at hx
    · rcases List.mem_singleton.mp hx with rfl
      refine ⟨pairwise_sortNav _, (allSortedCI_iff _).mpr ?_⟩
      intro y hy
      exact sidebarItems_nodes_sorted (pathJoin d n) b u es y ((mem_sortNav y _).mp hy)
    · exact absurd hx (List.not_mem_nil x)
  | file n c =>
    intro x hx
    simp only [sidebarEntry] at hx
    split at hx
    · rcases List.mem_singleton.mp hx with rfl
      exact trivial
    · exact absurd hx (List.not_mem_nil x)
/-- Every node emitted for an entry list has all nested levels sorted. -/
theorem sidebarItems_nodes_sorted (d b u : String) (es : List Entry) :
    ∀ x ∈ sidebarItems d b u es, nodeSortedCI x := by
  cases es with
  | nil =>
    intro x hx
    exact absurd hx (List.not_mem_nil x)
  | cons e rest =>
    intro x hx
    rcases List.mem_append.mp hx with hx | hx
    · exact sidebarEntry_nodes_sorted d b u e x hx
    · exact sidebarItems_nodes_sorted d b u rest x hx
end

/-- C7: for every directory tree, every sibling list of the generated
navigation structure, the top level and the items of every nested group,
is one combined list of groups and leaves sorted together case-insensitively
by label under the modeled localeCompare comparator; no level separates
groups from leaves. -/
theorem generateUmlSidebar_sorted (dir : String) (entries : List Entry) (urlBase : String) :
    sidebarSortedCI (generateUmlSidebar dir entries urlBase) := by
  refine ⟨pairwise_sortNav _, (allSortedCI_iff _).mpr ?_⟩
  intro x hx
  exact sidebarItems_nodes_sorted dir dir urlBase entries x ((mem_sortNav x _).mp hx)

/-- The recursive all-good predicate is membership of good nodes. -/
theorem allGood_iff : ∀ l : List NavNode, allGood l ↔ ∀ x ∈ l, nodeGood x
  | [] => by simp [allGood]
  | x :: xs => by
    simp [allGood, allGood_iff xs]

mutual
/-- Every node emitted for one entry has no empty nested group. -/
theorem sidebarEntry_nodes_good (d b u : String) (e : Entry) :
    ∀ x ∈ sidebarEntry d b u e, nodeGood x := by
  cases e with
  | dir n es =>
    intro x hx
    simp only [sidebarEntry] at hx
    split at hx
    · rcases List.mem_singleton.mp hx with rfl
      rename_i hlen
      refine ⟨?_, (allGood_iff _).mpr ?_⟩
      · intro hnil
        rw [hnil] at hlen
        exact absurd hlen (by simp)
      · intro y hy
        exact sidebarItems_nodes_good (pathJoin d n) b u es y ((mem_sortNav y _).mp hy)
    · exact absurd hx (List.not_mem_nil x)
  | file n c =>
    intro x hx
    simp only [sidebarEntry] at hx
    split at hx
    · rcases List.mem_singleton.mp hx with rfl
      exact trivial
    · exact absurd hx (List.not_mem_nil x)
/-- Every node emitted for an entry list has no empty nested group. -/
theorem sidebarItems_nodes_good (d b u : String) (es : List Entry) :
    ∀ x ∈ sidebarItems d b u es, nodeGood x := by
  cases es with
  | nil =>
    intro x hx
    exact absurd hx (List.not_mem_nil x)
  | cons e rest =>
    intro x hx
    rcases List.mem_append.mp hx with hx | hx
    · exact sidebarEntry_nodes_good d b u e x hx
    · exact sidebarItems_nodes_good d b u rest x hx
end

mutual
/-- Descendants of a good node are good. -/
theorem good_of_mem_nodeDescs (n : NavNode) (hg : nodeGood n) :
    ∀ m ∈ nodeDescs n, nodeGood m := by
  cases n with
  | leaf l k =>
    intro m hm
    rcases List.mem_singleton.mp hm with rfl
    exact trivial
  | group l items =>
    intro m hm
    rcases List.mem_cons.mp hm with rfl | hm
    · exact hg
    · exact good_of_mem_listDescs items hg.2 m hm
/-- Descendants of a list of good nodes are good. -/
theorem good_of_mem_listDescs (l : List NavNode) (hg : allGood l) :
    ∀ m ∈ listDescs l, nodeGood m := by
  cases l with
  | nil =>
    intro m hm
    exact absurd hm (List.not_mem_nil m)
  | cons x xs =>
    intro m hm
    rcases List.mem_append.mp hm with hm | hm
    · exact good_of_mem_nodeDescs x hg.1 m hm
    · exact good_of_mem_listDescs xs hg.2 m hm
end

/-- A good node has a leaf among its descendants. -/
theorem exists_leaf_of_nodeGood : ∀ n : NavNode, nodeGood n →
    ∃ lab k, NavNode.leaf lab k ∈ nodeDescs n
  | NavNode.leaf lab k, _ => ⟨lab, k, by simp [nodeDescs]⟩
  | NavNode.group lab items, hg => by
    match items, hg with
    | y :: ys, hg =>
      obtain ⟨l2, k2, hm⟩ := exists_leaf_of_nodeGood y hg.2.1
      exact ⟨l2, k2, List.mem_cons_of_mem _ (List.mem_append_left _ hm)⟩

/-- C8: for every directory tree, every group node occurring anywhere in the
generated navigation structure has a nonempty item list and at least one leaf
among the descendants of its items: empty subtrees are pruned at every level,
and a subdirectory appears as a group only if it yields a descendant leaf. -/
theorem generateUmlSidebar_no_empty_groups (dir : String) (entries : List Entry)
    (urlBase lab : String) (items : List NavNode)
    (h : NavNode.group lab items ∈ listDescs (generateUmlSidebar dir entries urlBase)) :
    items ≠ [] ∧ ∃ l k, NavNode.leaf l k ∈ listDescs items := by
  have hall : allGood (generateUmlSidebar dir entries urlBase) := by
    refine (allGood_iff _).mpr ?_
    intro x hx
    exact sidebarItems_nodes_good dir dir urlBase entries x ((mem_sortNav x _).mp hx)
  have hg : nodeGood (NavNode.group lab items) :=
    good_of_mem_listDescs _ hall _ h
  refine ⟨hg.1, ?_⟩
  match items, hg with
  | y :: ys, hg =>
    obtain ⟨l2, k2, hm⟩ := exists_leaf_of_nodeGood y hg.2.1
    exact ⟨l2, k2, List.mem_append_left _ hm⟩

/-- C8 witness: the theorem applied to a concrete tree with one subdirectory
holding one diagram, whose group indeed carries a nonempty item list. -/
theorem generateUmlSidebar_no_empty_groups_witness :
    [NavNode.leaf "b" "/uml/sub/b"] ≠ ([] : List NavNode) ∧
    ∃ l k, NavNode.leaf l k ∈ listDescs [NavNode.leaf "b" "/uml/sub/b"] :=
  generateUmlSidebar_no_empty_groups "/uml" [Entry.dir "sub" [Entry.file "b.puml" ""]]
    "/uml" "sub" [NavNode.leaf "b" "/uml/sub/b"]
    (by exact List.mem_cons_self _ _)

/-- Identifier characters never open a quote. -/
theorem isIdChar_not_quoteOpen {c : Char} (h : isIdChar c = true) :
    quoteOpenChar c = false := by
  cases hq : quoteOpenChar c with
  | false => rfl
  | true =>
    simp only [quoteOpenChar, Bool.or_eq_true, decide_eq_true_eq] at hq
    rcases hq with ((rfl | rfl) | rfl) | rfl <;> exact absurd h (by decide)

/-- Identifier characters never close a quote. -/
theorem isIdChar_not_quoteClose {c : Char} (h : isIdChar c = true) :
    quoteCloseChar c = false := by
  cases hq : quoteCloseChar c with
  | false => rfl
  | true =>
    simp only [quoteCloseChar, Bool.or_eq_true, decide_eq_true_eq] at hq
    rcases hq with ((rfl | rfl) | rfl) | rfl <;> exact absurd h (by decide)

/-- Identifier characters are not whitespace. -/
theorem isIdChar_not_ws {c : Char} (h : isIdChar c = true) : isWsChar c = false := by
  cases hq : isWsChar c with
  | false => rfl
  | true =>
    simp only [isWsChar, Bool.or_eq_true, decide_eq_true_eq] at hq
    rcases hq with ((((rfl | rfl) | rfl) | rfl) | rfl) | rfl <;> exact absurd h (by decide)

/-- Identifier characters are not the closing angle bracket. -/
theorem isIdChar_ne_gtc {c : Char} (h : isIdChar c = true) : c ≠ '>' := by
  intro hc
  subst hc
  exact absurd h (by decide)

/-- Identifier characters are not the opening angle bracket. -/
theorem isIdChar_ne_ltc {c : Char} (h : isIdChar c = true) : c ≠ '<' := by
  intro hc
  subst hc
  exact absurd h (by decide)

/-- Identifier characters are not the double quote. -/
theorem isIdChar_ne_dq {c : Char} (h : isIdChar c = true) : c ≠ cDQ := by
  intro hc
  subst hc
  exact absurd h (by decide)

/-- Identifier characters are not the backtick. -/
theorem isIdChar_ne_bt {c : Char} (h : isIdChar c = true) : c ≠ cBT := by
  intro hc
  subst hc
  exact absurd h (by decide)

/-- A list is a prefix of itself extended on the right, in executable form. -/
theorem isPrefixOf_append_self (l r : List Char) : l.isPrefixOf (l ++ r) = true := by
  rw [List.isPrefixOf_iff_prefix]
  exact List.prefix_append l r

/-- Completeness of the identifier tail check on an exactly aligned identifier. -/
theorem checkTarget_self (t : List Char) (q : Char) (r : List Char)
    (hq : quoteCloseChar q = true) : checkTarget t (t ++ q :: r) = true := by
  simp only [checkTarget, isPrefixOf_append_self, List.drop_left, headQuoteClose,
    Bool.true_and]
  exact hq

/-- Soundness of the identifier tail check: over the identifier alphabet,
a target aligned at the start of an identifier that is immediately followed
by a quote-closing character must be that whole identifier. -/
theorem checkTarget_exact : ∀ (t id : List Char) (q : Char) (r : List Char),
    (∀ c ∈ t, isIdChar c = true) → (∀ c ∈ id, isIdChar c = true) →
    quoteCloseChar q = true → checkTarget t (id ++ q :: r) = true → t = id
  | [], [], _, _, _, _, _, _ => rfl
  | [], d :: id2, q, r, _, hid, _, hc => by
    have hd := hid d (List.mem_cons_self d id2)
    simp only [checkTarget, List.isPrefixOf, List.drop, List.cons_append, headQuoteClose,
      Bool.true_and, List.length_nil] at hc
    exact absurd hc (by simp [isIdChar_not_quoteClose hd])
  | a :: t2, [], q, r, ht, _, hq, hc => by
    have ha := ht a (List.mem_cons_self a t2)
    simp only [checkTarget, List.nil_append, List.isPrefixOf, Bool.and_eq_true,
      beq_iff_eq] at hc
    obtain ⟨⟨rfl, _⟩, _⟩ := hc
    exact absurd hq (by simp [isIdChar_not_quoteClose ha])
  | a :: t2, d :: id2, q, r, ht, hid, hq, hc => by
    simp only [checkTarget, List.cons_append, List.isPrefixOf, Bool.and_eq_true,
      beq_iff_eq, List.length_cons, List.drop_succ_cons] at hc
    obtain ⟨⟨rfl, hpre⟩, hmatch⟩ := hc
    have hrec : checkTarget t2 (id2 ++ q :: r) = true := by
      simp only [checkTarget, Bool.and_eq_true]
      exact ⟨hpre, hmatch⟩
    rw [checkTarget_exact t2 id2 q r (fun c hcm => ht c (List.mem_cons_of_mem _ hcm))
      (fun c hcm => hid c (List.mem_cons_of_mem _ hcm)) hq hrec]

/-- A run starting with a character that opens no quote fails. -/
theorem quoteRun_not_open (t : List Char) {c : Char} (h : quoteOpenChar c = false)
    (l : List Char) : quoteRun t (c :: l) = false := by
  simp [quoteRun, h]

/-- The optional double quote branch fails on any other character. -/
theorem dqThenTarget_ne (t : List Char) {c : Char} (h : c ≠ cDQ) (l : List Char) :
    dqThenTarget t (c :: l) = false := by
  simp only [dqThenTarget, Bool.and_eq_true_iff]
  rw [decide_eq_false h]
  simp

/-- The identifier tail check fails when the heads differ. -/
theorem checkTarget_ne_head {a : Char} (t2 : List Char) {b : Char} (h : a ≠ b)
    (l : List Char) : checkTarget (a :: t2) (b :: l) = false := by
  simp only [checkTarget, List.isPrefixOf]
  rw [beq_eq_false_iff_ne.mpr h]
  simp

/-- After the quote opening of any of the three variants, the pattern accepts
exactly the embedded identifier: the quoted-identifier segment of the pattern
matches the rendered attribute value if and only if the target equals the
identifier. -/
theorem quoteRun_variant (v : QuoteVariant) (t id s : List Char)
    (htne : t ≠ []) (hta : ∀ c ∈ t, isIdChar c = true)
    (hidne : id ≠ []) (hida : ∀ c ∈ id, isIdChar c = true) :
    (quoteRun t (openQuote v ++ (id ++ (closeQuote v ++ s))) = true) ↔ t = id := by
  obtain ⟨d, id2, rfl⟩ := List.exists_cons_of_ne_nil hidne
  have hd := hida d (List.mem_cons_self d id2)
  cases v with
  | double =>
    have hshape :
        openQuote QuoteVariant.double ++ ((d :: id2) ++ (closeQuote QuoteVariant.double ++ s)) =
          cDQ :: ((d :: id2) ++ cDQ :: s) := by
      simp [openQuote, closeQuote]
    rw [hshape]
    have hrun : quoteRun t (cDQ :: ((d :: id2) ++ cDQ :: s)) =
        checkTarget t ((d :: id2) ++ cDQ :: s) := by
      simp only [quoteRun, afterOpenQuotes, List.cons_append]
      rw [isIdChar_not_quoteOpen hd, dqThenTarget_ne t (isIdChar_ne_dq hd)]
      simp [quoteOpenChar]
    rw [hrun]
    constructor
    · intro h
      exact checkTarget_exact t (d :: id2) cDQ s hta hida (by decide) h
    · intro h
      rw [h]
      exact checkTarget_self (d :: id2) cDQ s (by decide)
  | single =>
    have hshape :
        openQuote QuoteVariant.single ++ ((d :: id2) ++ (closeQuote QuoteVariant.single ++ s)) =
          cSQ :: ((d :: id2) ++ cSQ :: s) := by
      simp [openQuote, closeQuote]
    rw [hshape]
    have hrun : quoteRun t (cSQ :: ((d :: id2) ++ cSQ :: s)) =
        checkTarget t ((d :: id2) ++ cSQ :: s) := by
      simp only [quoteRun, afterOpenQuotes, List.cons_append]
      rw [isIdChar_not_quoteOpen hd, dqThenTarget_ne t (isIdChar_ne_dq hd)]
      simp [quoteOpenChar]
    rw [hrun]
    constructor
    · intro h
      exact checkTarget_exact t (d :: id2) cSQ s hta hida (by decide) h
    · intro h
      rw [h]
      exact checkTarget_self (d :: id2) cSQ s (by decide)
  | braceTemplate =>
    obtain ⟨a, t2, rfl⟩ := List.exists_cons_of_ne_nil htne
    have ha := hta a (List.mem_cons_self a t2)
    have hshape :
        openQuote QuoteVariant.braceTemplate ++
            ((d :: id2) ++ (closeQuote QuoteVariant.braceTemplate ++ s)) =
          cOB :: cBT :: ((d :: id2) ++ cBT :: cCB :: s) := by
      simp [openQuote, closeQuote]
    rw [hshape]
    have hrun : quoteRun (a :: t2) (cOB :: cBT :: ((d :: id2) ++ cBT :: cCB :: s)) =
        checkTarget (a :: t2) ((d :: id2) ++ cBT :: cCB :: s) := by
      simp only [quoteRun, afterOpenQuotes, List.cons_append]
      rw [isIdChar_not_quoteOpen hd,
        dqThenTarget_ne (a :: t2) (by decide : cBT ≠ cDQ),
        dqThenTarget_ne (a :: t2) (isIdChar_ne_dq hd),
        checkTarget_ne_head t2 (isIdChar_ne_bt ha)]
      simp [quoteOpenChar]
    rw [hrun]
    constructor
    · intro h
      exact checkTarget_exact (a :: t2) (d :: id2) cBT (cCB :: s) hta hida (by decide) h
    · intro h
      rw [h]
      exact checkTarget_self (d :: id2) cBT (cCB :: s) (by decide)

/-- The attribute scan passes unchanged over characters that are neither
whitespace nor the closing angle bracket. -/
theorem attrScan_skip (t : List Char) : ∀ (l r : List Char),
    (∀ c ∈ l, isWsChar c = false ∧ c ≠ '>') →
    attrScan t (l ++ r) = attrScan t r
  | [], _, _ => rfl
  | c :: l2, r, h => by
    have hc := h c (List.mem_cons_self c l2)
    rw [List.cons_append]
    simp only [attrScan]
    rw [if_neg hc.2, hc.1]
    simp only [Bool.false_and, Bool.false_or]
    exact attrScan_skip t l2 r (fun x hx => h x (List.mem_cons_of_mem c hx))

/-- The attribute scan fails on the closing markup of an embed: the space
tries the attribute literal and misses, the slash is skipped, and the
closing angle bracket stops the scan. -/
theorem attrScan_close (t : List Char) (s : List Char) :
    attrScan t (" />".data ++ s) = false := by
  show attrScan t (' ' :: '/' :: '>' :: s) = false
  simp only [attrScan]
  have hpre : (['f', 'i', 'l', 'e', '='].isPrefixOf ('/' :: '>' :: s)) = false := rfl
  simp [isWsChar, hpre]

/-- At the whitespace before the attribute literal, the scan reduces to the
quoted-identifier segment or to scanning on behind the whitespace. -/
theorem attrScan_ws_file (t Q : List Char) :
    attrScan t (' ' :: ("file=".data ++ Q)) =
      (quoteRun t Q || attrScan t ("file=".data ++ Q)) := by
  simp only [attrScan]
  rw [if_neg (by decide : ¬(' ' = '>')), isPrefixOf_append_self]
  have hdrop : ("file=".data ++ Q).drop 5 = Q := by
    have h := List.drop_left "file=".data Q
    simpa using h
  rw [hdrop]
  simp [isWsChar]

/-- Over a rendered attribute region, the scan reduces exactly to the
quoted-identifier segment of the pattern. -/
theorem attrScan_render (t : List Char) (v : QuoteVariant) (id s : List Char)
    (hida : ∀ c ∈ id, isIdChar c = true) :
    attrScan t (' ' :: ("file=".data ++ (openQuote v ++ (id ++ (closeQuote v ++ (" />".data ++ s)))))) =
      quoteRun t (openQuote v ++ (id ++ (closeQuote v ++ (" />".data ++ s)))) := by
  rw [attrScan_ws_file]
  suffices h : attrScan t ("file=".data ++ (openQuote v ++ (id ++ (closeQuote v ++ (" />".data ++ s))))) = false by
    rw [h, Bool.or_false]
  rw [attrScan_skip t "file=".data _ (by decide)]
  rw [attrScan_skip t (openQuote v) _ (by cases v <;> decide)]
  rw [attrScan_skip t id _ (fun c hc => ⟨isIdChar_not_ws (hida c hc), isIdChar_ne_gtc (hida c hc)⟩)]
  rw [attrScan_skip t (closeQuote v) _ (by cases v <;> decide)]
  exact attrScan_close t s

/-- Decomposition of a rendered embed into its leading angle bracket and tail. -/
theorem renderItem_embed_cons (v : QuoteVariant) (id : String) :
    renderItem (PageItem.plantEmbed v id) =
      '<' :: ("PlantUML file=".data ++ (openQuote v ++ (id.data ++ (closeQuote v ++ " />".data)))) := by
  rfl

/-- The pattern cannot match at a position whose character is not the
opening angle bracket. -/
theorem matchPlantAt_ne_lt (t : List Char) {c : Char} (h : c ≠ '<') (l : List Char) :
    matchPlantAt t (c :: l) = false := by
  have hud : matchPlantAt t (c :: l) =
      ((('<' : Char) == c && ("PlantUML".data.isPrefixOf l)) && attrScan t (List.drop 9 (c :: l))) := rfl
  rw [hud, beq_eq_false_iff_ne.mpr (Ne.symm h)]
  simp

/-- Nonemptiness from a well-formed target. -/
theorem wfTargetB_ne {t : List Char} (ht : wfTargetB t = true) : t ≠ [] := by
  intro h
  rw [h] at ht
  exact absurd ht (by decide)

/-- Alphabet membership from a well-formed target. -/
theorem wfTargetB_alpha {t : List Char} (ht : wfTargetB t = true) :
    ∀ c ∈ t, isIdChar c = true := by
  have h : t.all isIdChar = true := by
    simp only [wfTargetB, Bool.and_eq_true] at ht
    exact ht.2
  exact List.all_eq_true.mp h

/-- Nonemptiness of the identifier of a well-formed embed. -/
theorem wfEmbed_ne {v : QuoteVariant} {id : String}
    (hid : wfItemB (PageItem.plantEmbed v id) = true) : id.data ≠ [] := by
  intro h
  simp only [wfItemB] at hid
  rw [h] at hid
  exact absurd hid (by decide)

/-- Alphabet membership of the identifier of a well-formed embed. -/
theorem wfEmbed_alpha {v : QuoteVariant} {id : String}
    (hid : wfItemB (PageItem.plantEmbed v id) = true) :
    ∀ c ∈ id.data, isIdChar c = true := by
  have h : id.data.all isIdChar = true := by
    simp only [wfItemB, Bool.and_eq_true] at hid
    exact hid.2
  exact List.all_eq_true.mp h

/-- The pattern matches at the start of a rendered embed followed by
anything if and only if the target is exactly the embedded identifier. -/
theorem matchPlantAt_embed (t : List Char) (v : QuoteVariant) (id : String) (s : List Char)
    (ht : wfTargetB t = true) (hid : wfItemB (PageItem.plantEmbed v id) = true) :
    (matchPlantAt t (renderItem (PageItem.plantEmbed v id) ++ s) = true) ↔ t = id.data := by
  have hdecomp : renderItem (PageItem.plantEmbed v id) ++ s =
      "<PlantUML".data ++
        (' ' :: ("file=".data ++ (openQuote v ++ (id.data ++ (closeQuote v ++ (" />".data ++ s)))))) := by
    simp [renderItem, List.append_assoc]
  rw [hdecomp]
  simp only [matchPlantAt]
  rw [isPrefixOf_append_self]
  have hdrop :
      ("<PlantUML".data ++
        (' ' :: ("file=".data ++ (openQuote v ++ (id.data ++ (closeQuote v ++ (" />".data ++ s))))))).drop 9 =
      ' ' :: ("file=".data ++ (openQuote v ++ (id.data ++ (closeQuote v ++ (" />".data ++ s))))) := by
    have h := List.drop_left "<PlantUML".data
      (' ' :: ("file=".data ++ (openQuote v ++ (id.data ++ (closeQuote v ++ (" />".data ++ s))))))
    simpa using h
  rw [hdrop]
  simp only [Bool.true_and]
  rw [attrScan_render t v id.data s (wfEmbed_alpha hid)]
  exact quoteRun_variant v t id.data (" />".data ++ s) (wfTargetB_ne ht)
    (wfTargetB_alpha ht) (wfEmbed_ne hid) (wfEmbed_alpha hid)

/-- A pattern search over an appended text matches exactly when it matches at
a position inside the first part or anywhere in the second part. -/
theorem plantRegexTest_append (t : List Char) : ∀ (a s : List Char),
    plantRegexTest t (a ++ s) = true ↔
      (∃ u, u ≠ [] ∧ u <:+ a ∧ matchPlantAt t (u ++ s) = true) ∨
        plantRegexTest t s = true
  | [], s => by
    simp only [List.nil_append]
    constructor
    · intro h
      exact Or.inr h
    · rintro (⟨u, hne, hu, _⟩ | h)
      · exact absurd (List.suffix_nil.mp hu) hne
      · exact h
  | c :: a2, s => by
    rw [List.cons_append]
    have hstep : plantRegexTest t (c :: (a2 ++ s)) =
        (matchPlantAt t (c :: (a2 ++ s)) || plantRegexTest t (a2 ++ s)) := rfl
    rw [hstep, Bool.or_eq_true, plantRegexTest_append t a2 s]
    constructor
    · rintro (hm | (⟨u, hne, hu, hm⟩ | h))
      · refine Or.inl ⟨c :: a2, by simp, List.suffix_refl _, ?_⟩
        rw [List.cons_append]
        exact hm
      · exact Or.inl ⟨u, hne, hu.trans (List.suffix_cons c a2), hm⟩
      · exact Or.inr h
    · rintro (⟨u, hne, hu, hm⟩ | h)
      · rcases List.suffix_cons_iff.mp hu with rfl | hu2
        · refine Or.inl ?_
          rw [List.cons_append] at hm
          exact hm
        · exact Or.inr (Or.inl ⟨u, hne, hu2, hm⟩)
      · exact Or.inr (Or.inr h)

/-- Plain text of a well-formed page has no opening angle bracket. -/
theorem wfPlain_no_lt {txt : String}
    (hwf : wfItemB (PageItem.plainText txt) = true) : ∀ c ∈ txt.data, c ≠ '<' := by
  intro c hc
  simp only [wfItemB, List.all_eq_true] at hwf
  have := hwf c hc
  simp only [Bool.not_eq_true'] at this
  intro hlt
  rw [hlt] at this
  exact absurd this (by decide)

/-- No character after the leading bracket of a rendered embed is an opening
angle bracket. -/
theorem renderTail_no_lt (v : QuoteVariant) (id : String)
    (hida : ∀ c ∈ id.data, isIdChar c = true) :
    ∀ c ∈ ("PlantUML file=".data ++ (openQuote v ++ (id.data ++ (closeQuote v ++ " />".data)))),
      c ≠ '<' := by
  intro c hc
  rcases List.mem_append.mp hc with h | h
  · exact (by decide : ∀ x ∈ "PlantUML file=".data, x ≠ '<') c h
  · rcases List.mem_append.mp h with h | h
    · cases v with
      | double => exact (by decide : ∀ x ∈ openQuote QuoteVariant.double, x ≠ '<') c h
      | single => exact (by decide : ∀ x ∈ openQuote QuoteVariant.single, x ≠ '<') c h
      | braceTemplate =>
        exact (by decide : ∀ x ∈ openQuote QuoteVariant.braceTemplate, x ≠ '<') c h
    · rcases List.mem_append.mp h with h | h
      · exact isIdChar_ne_ltc (hida c h)
      · rcases List.mem_append.mp h with h | h
        · cases v with
          | double => exact (by decide : ∀ x ∈ closeQuote QuoteVariant.double, x ≠ '<') c h
          | single => exact (by decide : ∀ x ∈ closeQuote QuoteVariant.single, x ≠ '<') c h
          | braceTemplate =>
            exact (by decide : ∀ x ∈ closeQuote QuoteVariant.braceTemplate, x ≠ '<') c h
        · exact (by decide : ∀ x ∈ " />".data, x ≠ '<') c h

/-- Soundness at the item level: a match whose start lies inside the
rendering of one well-formed page component forces that component to be an
embed of exactly the target identifier. -/
theorem matchPlant_suffix_item (t : List Char) (i : PageItem) (u s : List Char)
    (hwf : wfItemB i = true) (ht : wfTargetB t = true)
    (hu : u <:+ renderItem i) (hne : u ≠ [])
    (hm : matchPlantAt t (u ++ s) = true) :
    ∃ v id, i = PageItem.plantEmbed v id ∧ id.data = t := by
  cases i with
  | plainText txt =>
    exfalso
    obtain ⟨c, u2, rfl⟩ := List.exists_cons_of_ne_nil hne
    have hcmem : c ∈ txt.data := hu.subset (List.mem_cons_self c u2)
    have hclt : c ≠ '<' := wfPlain_no_lt hwf c hcmem
    rw [List.cons_append] at hm
    rw [matchPlantAt_ne_lt t hclt (u2 ++ s)] at hm
    exact absurd hm (by simp)
  | plantEmbed v id =>
    rw [renderItem_embed_cons v id] at hu
    rcases List.suffix_cons_iff.mp hu with rfl | hu2
    · refine ⟨v, id, rfl, ?_⟩
      refine ((matchPlantAt_embed t v id s ht hwf).mp ?_).symm
      rw [renderItem_embed_cons v id, List.cons_append]
      simpa [List.append_assoc] using hm
    · exfalso
      obtain ⟨c, u2, rfl⟩ := List.exists_cons_of_ne_nil hne
      have hcmem : c ∈ "PlantUML file=".data ++
          (openQuote v ++ (id.data ++ (closeQuote v ++ " />".data))) :=
        hu2.subset (List.mem_cons_self c u2)
      have hclt : c ≠ '<' := renderTail_no_lt v id (wfEmbed_alpha hwf) c hcmem
      rw [List.cons_append] at hm
      rw [matchPlantAt_ne_lt t hclt (u2 ++ s)] at hm
      exact absurd hm (by simp)

/-- The pattern test on a rendered well-formed page succeeds exactly when
some component of the page embeds the target identifier. -/
theorem plantRegexTest_render_iff (t : List Char) : ∀ (items : List PageItem),
    wfItemsB items = true → wfTargetB t = true →
    ((plantRegexTest t (renderItems items) = true) ↔ containsEmbed t items = true)
  | [], _, _ => by
    simp [renderItems, plantRegexTest, containsEmbed]
  | i :: rest, hwf, ht => by
    have hwf1 : wfItemB i = true := by
      simp only [wfItemsB, List.all_cons, Bool.and_eq_true] at hwf
      exact hwf.1
    have hwfr : wfItemsB rest = true := by
      simp only [wfItemsB, List.all_cons, Bool.and_eq_true] at hwf
      exact hwf.2
    have hitems : renderItems (i :: rest) = renderItem i ++ renderItems rest := rfl
    rw [hitems, plantRegexTest_append t (renderItem i) (renderItems rest)]
    have hcons : containsEmbed t (i :: rest) =
        (embedHeadTest t i || containsEmbed t rest) := rfl
    rw [hcons, Bool.or_eq_true]
    constructor
    · rintro (⟨u, hne, hu, hm⟩ | h)
      · obtain ⟨v, id, rfl, hid⟩ := matchPlant_suffix_item t i u _ hwf1 ht hu hne hm
        exact Or.inl (by simp [embedHeadTest, hid])
      · exact Or.inr ((plantRegexTest_render_iff t rest hwfr ht).mp h)
    · rintro (hhead | hrest)
      · cases i with
        | plainText txt => exact absurd hhead (by simp [embedHeadTest])
        | plantEmbed v id =>
          have hid : id.data = t := by simpa [embedHeadTest] using hhead
          refine Or.inl ⟨renderItem (PageItem.plantEmbed v id), ?_, List.suffix_refl _, ?_⟩
          · rw [renderItem_embed_cons v id]
            exact List.cons_ne_nil _ _
          · exact (matchPlantAt_embed t v id (renderItems rest) ht hwf1).mpr hid.symm
      · exact Or.inr ((plantRegexTest_render_iff t rest hwfr ht).mpr hrest)

/-- The relative path computed by slicing off the base prefix equals the
accumulated prefix joined with the entry name. -/
theorem strDropLeft_pathJoin (base dirPath pre n : String)
    (h : dirPath.data ++ ['/'] = base.data ++ '/' :: pre.data) :
    strDropLeft (pathJoin dirPath n) (base.length + 1) = pre ++ n := by
  apply String.ext
  show (pathJoin dirPath n).data.drop (base.length + 1) = (pre ++ n).data
  rw [pathJoin_data, String.data_append]
  calc (dirPath.data ++ '/' :: n.data).drop (base.length + 1)
      = ((dirPath.data ++ ['/']) ++ n.data).drop (base.length + 1) := by simp
    _ = ((base.data ++ '/' :: pre.data) ++ n.data).drop (base.length + 1) := by rw [h]
    _ = (base.data ++ '/' :: (pre.data ++ n.data)).drop (base.length + 1) := by simp
    _ = pre.data ++ n.data := drop_base_prefix base (pre.data ++ n.data)

/-- Joining one more directory name maintains the prefix invariant of the
recursive scans. -/
theorem pathJoin_invariant (base dirPath pre n : String)
    (h : dirPath.data ++ ['/'] = base.data ++ '/' :: pre.data) :
    (pathJoin dirPath n).data ++ ['/'] = base.data ++ '/' :: (pre ++ n ++ "/").data := by
  rw [pathJoin_data, String.data_append, String.data_append]
  calc (dirPath.data ++ '/' :: n.data) ++ ['/']
      = (dirPath.data ++ ['/']) ++ (n.data ++ ['/']) := by simp
    _ = (base.data ++ '/' :: pre.data) ++ (n.data ++ ['/']) := by rw [h]
    _ = base.data ++ '/' :: (pre.data ++ n.data ++ ("/" : String).data) := by simp

mutual
/-- The scanner on the rendering of one well-formed docs tree produces the
reference listing of the specification. -/
theorem scanTree_spec (xt : String → Option String) (t : List Char) (base : String)
    (p : PageTree) (pre dirPath : String)
    (h : dirPath.data ++ ['/'] = base.data ++ '/' :: pre.data)
    (hwf : wfPageTree p = true) (ht : wfTargetB t = true) :
    scanEntry xt t dirPath base (pageToEntry p) = specRefsTree xt t pre p := by
  cases p with
  | page n items =>
    show scanEntry xt t dirPath base (Entry.file n (renderPage items)) = _
    have hwfitems : wfItemsB items = true := hwf
    have hiff := plantRegexTest_render_iff t items hwfitems ht
    by_cases hmd : (strEndsWith n ".mdx" || strEndsWith n ".md") = true
    · by_cases hemb : containsEmbed t items = true
      · have htest : plantRegexTest t (renderPage items).data = true := hiff.mpr hemb
        show (if strEndsWith n ".mdx" || strEndsWith n ".md" then
            if plantRegexTest t (renderPage items).data then
              [mkReference xt n (renderPage items)
                (strDropLeft (pathJoin dirPath n) (base.length + 1))]
            else []
          else []) = _
        rw [if_pos hmd, if_pos htest]
        show _ = specRefsTree xt t pre (PageTree.page n items)
        simp only [specRefsTree]
        rw [if_pos (by rw [hmd, hemb]; rfl : ((strEndsWith n ".mdx" || strEndsWith n ".md") &&
          containsEmbed t items) = true)]
        rw [strDropLeft_pathJoin base dirPath pre n h]
      · have htest : plantRegexTest t (renderPage items).data = false := by
          cases hcase : plantRegexTest t (renderPage items).data with
          | false => rfl
          | true => exact absurd (hiff.mp hcase) hemb
        show (if strEndsWith n ".mdx" || strEndsWith n ".md" then
            if plantRegexTest t (renderPage items).data then
              [mkReference xt n (renderPage items)
                (strDropLeft (pathJoin dirPath n) (base.length + 1))]
            else []
          else []) = _
        rw [if_pos hmd, htest]
        show [] = specRefsTree xt t pre (PageTree.page n items)
        simp only [specRefsTree]
        have hembf : containsEmbed t items = false := by
          cases hcase : containsEmbed t items with
          | false => rfl
          | true => exact absurd hcase hemb
        rw [if_neg (by simp [hembf] : ¬(((strEndsWith n ".mdx" || strEndsWith n ".md") &&
          containsEmbed t items) = true))]
    · show (if strEndsWith n ".mdx" || strEndsWith n ".md" then
          if plantRegexTest t (renderPage items).data then
            [mkReference xt n (renderPage items)
              (strDropLeft (pathJoin dirPath n) (base.length + 1))]
          else []
        else []) = _
      rw [if_neg hmd]
      show [] = specRefsTree xt t pre (PageTree.page n items)
      simp only [specRefsTree]
      rw [if_neg (by
        intro hcontra
        exact hmd (by
          rcases Bool.and_eq_true_iff.mp hcontra with ⟨h1, _⟩
          exact h1))]
  | other n c =>
    show scanEntry xt t dirPath base (Entry.file n c) = []
    have hnot : (strEndsWith n ".mdx" || strEndsWith n ".md") = false := by
      simp only [wfPageTree, Bool.and_eq_true, Bool.not_eq_true'] at hwf
      rw [hwf.1, hwf.2]
      rfl
    simp only [scanEntry]
    rw [hnot]
    rfl
  | dir n es =>
    show scanList xt t (pathJoin dirPath n) base (pageForest es) =
      specRefsForest xt t (pre ++ n ++ "/") es
    exact scanForest_spec xt t base es (pre ++ n ++ "/") (pathJoin dirPath n)
      (pathJoin_invariant base dirPath pre n h) hwf ht
/-- The scanner on the rendering of a well-formed docs forest produces the
reference listing of the specification. -/
theorem scanForest_spec (xt : String → Option String) (t : List Char) (base : String)
    (ps : List PageTree) (pre dirPath : String)
    (h : dirPath.data ++ ['/'] = base.data ++ '/' :: pre.data)
    (hwf : wfPageForest ps = true) (ht : wfTargetB t = true) :
    scanList xt t dirPath base (pageForest ps) = specRefsForest xt t pre ps := by
  cases ps with
  | nil => rfl
  | cons p rest =>
    have hwf1 : wfPageTree p = true := by
      simp only [wfPageForest, Bool.and_eq_true] at hwf
      exact hwf.1
    have hwfr : wfPageForest rest = true := by
      simp only [wfPageForest, Bool.and_eq_true] at hwf
      exact hwf.2
    show scanEntry xt t dirPath base (pageToEntry p) ++
        scanList xt t dirPath base (pageForest rest) =
      specRefsTree xt t pre p ++ specRefsForest xt t pre rest
    rw [scanTree_spec xt t base p pre dirPath h hwf1 ht,
      scanForest_spec xt t base rest pre dirPath h hwfr ht]
end

/-- C3: for every well-formed target identifier and every well-formed docs
tree, the reference scanner returns exactly the records of the markdown pages
containing a syntactically valid embed of that exact identifier, covering all
three quoting variants of the attribute value; identifiers are matched
case-sensitively and in full, an embed of a different identifier with the
target as a proper substring never matches, and when no page embeds the
identifier the listing on the right is empty, so the scanner returns no
records. -/
theorem findDiagramReferences_exact (xt : String → Option String) (target : String)
    (docsDir : String) (trees : List PageTree)
    (hwf : wfPageForest trees = true) (ht : wfTargetB target.data = true) :
    findDiagramReferences xt target docsDir (pageForest trees) =
      specRefsForest xt target.data "" trees := by
  apply scanForest_spec xt target.data docsDir trees "" docsDir _ hwf ht
  simp

/-- C3 witness: the theorem applied to the concrete docs forest with all
three quoting variants, a page embedding a different identifier and a
non-page file, with both hypotheses evaluated. -/
theorem findDiagramReferences_exact_witness :
    wfPageForest demoDocsForest = true ∧ wfTargetB ("v1").data = true ∧
    findDiagramReferences (fun _ => none) "v1" "/docs" (pageForest demoDocsForest) =
      specRefsForest (fun _ => none) ("v1").data "" demoDocsForest :=
  ⟨by decide, by decide,
    findDiagramReferences_exact (fun _ => none) "v1" "/docs" demoDocsForest
      (by decide) (by decide)⟩

/-- Two suffixes of one list are comparable. -/
theorem suffix_or_suffix {l1 l2 l3 : List Char} (h1 : l1 <:+ l3) (h2 : l2 <:+ l3) :
    l1 <:+ l2 ∨ l2 <:+ l1 := by
  rcases List.prefix_or_prefix_of_prefix (List.reverse_prefix.mpr h1)
      (List.reverse_prefix.mpr h2) with h | h
  · exact Or.inl (List.reverse_prefix.mp h)
  · exact Or.inr (List.reverse_prefix.mp h)

/-- The executable suffix test is list suffix. -/
theorem strEndsWith_iff {p sfx : String} : strEndsWith p sfx = true ↔ sfx.data <:+ p.data := by
  rw [strEndsWith, List.isSuffixOf_iff_suffix]

/-- A string ends with its appended suffix. -/
theorem strEndsWith_append (x sfx : String) : strEndsWith (x ++ sfx) sfx = true := by
  rw [strEndsWith_iff, String.data_append]
  exact List.suffix_append _ _

/-- Dropping the length of an appended suffix recovers the front. -/
theorem strDropRight_append (x sfx : String) :
    strDropRight (x ++ sfx) sfx.data.length = x := by
  apply String.ext
  show ((x ++ sfx)).data.take ((x ++ sfx).data.length - sfx.data.length) = x.data
  rw [String.data_append, List.length_append]
  have h : x.data.length + sfx.data.length - sfx.data.length = x.data.length := by omega
  rw [h, List.take_left]

/-- Joining with a last segment splits off that segment. -/
theorem joinSegs_append_last : ∀ (dirs : List String) (x : String),
    joinSegs (dirs ++ [x]) = if dirs = [] then x else joinSegs dirs ++ "/" ++ x
  | [], x => by simp [joinSegs]
  | [d], x => by simp [joinSegs]
  | d :: d2 :: rest, x => by
    have ih := joinSegs_append_last (d2 :: rest) x
    rw [if_neg (by simp)] at ih
    have ih2 : joinSegs (d2 :: (rest ++ [x])) = joinSegs (d2 :: rest) ++ "/" ++ x := by
      simpa using ih
    show joinSegs (d :: d2 :: (rest ++ [x])) = _
    rw [if_neg (by simp)]
    show d ++ "/" ++ joinSegs (d2 :: (rest ++ [x])) = d ++ "/" ++ joinSegs (d2 :: rest) ++ "/" ++ x
    rw [ih2]
    simp [String.append_assoc]

/-- Characters of a joined segment list are separators or segment characters. -/
theorem joinSegs_mem : ∀ (l : List String) (c : Char), c ∈ (joinSegs l).data →
    c = '/' ∨ ∃ d ∈ l, c ∈ d.data
  | [], c, h => absurd h (by simp [joinSegs])
  | [d], c, h => Or.inr ⟨d, by simp, by simpa [joinSegs] using h⟩
  | d :: d2 :: rest, c, h => by
    have hshape : joinSegs (d :: d2 :: rest) = d ++ "/" ++ joinSegs (d2 :: rest) := rfl
    rw [hshape, String.data_append, String.data_append] at h
    rcases List.mem_append.mp h with h | h
    · rcases List.mem_append.mp h with h | h
      · exact Or.inr ⟨d, by simp, h⟩
      · rcases by simpa using h with rfl
        exact Or.inl rfl
    · rcases joinSegs_mem (d2 :: rest) c h with h2 | ⟨e, he, hc⟩
      · exact Or.inl h2
      · exact Or.inr ⟨e, List.mem_cons_of_mem d he, hc⟩

/-- Slash normalization is the identity on backslash-free strings. -/
theorem normalizeSlashes_id (p : String) (h : cBS ∉ p.data) : normalizeSlashes p = p := by
  apply String.ext
  show p.data.map (fun c => if c = cBS then '/' else c) = p.data
  calc p.data.map (fun c => if c = cBS then '/' else c)
      = p.data.map id := List.map_congr_left (fun a ha => by
        rw [if_neg (fun h2 => h (by rw [← h2]; exact ha))]
        rfl)
    _ = p.data := List.map_id p.data

/-- Stripping the mdx extension. -/
theorem dropMdExt_mdx (y : String) : dropMdExt (y ++ ".mdx") = y := by
  simp only [dropMdExt]
  rw [strEndsWith_append y ".mdx", if_pos rfl]
  exact strDropRight_append y ".mdx"

/-- A string ending in the md extension does not end in the mdx extension. -/
theorem endsWith_mdx_of_md_false (y : String) : strEndsWith (y ++ ".md") ".mdx" = false := by
  cases hc : strEndsWith (y ++ ".md") ".mdx" with
  | false => rfl
  | true =>
    exfalso
    have hs : ".mdx".data <:+ (y ++ ".md").data := strEndsWith_iff.mp hc
    obtain ⟨pre2, hp⟩ := hs
    have h1 : ((y ++ ".md")).data.getLast? = some 'x' := by
      rw [← hp, List.getLast?_append_of_ne_nil _ (by decide : (".mdx".data : List Char) ≠ [])]
      rfl
    have h2 : ((y ++ ".md")).data.getLast? = some 'd' := by
      rw [String.data_append,
        List.getLast?_append_of_ne_nil _ (by decide : ((".md" : String).data : List Char) ≠ [])]
      rfl
    rw [h1] at h2
    exact absurd h2 (by decide)

/-- Stripping the md extension. -/
theorem dropMdExt_md (y : String) : dropMdExt (y ++ ".md") = y := by
  simp only [dropMdExt]
  rw [endsWith_mdx_of_md_false y, strEndsWith_append y ".md"]
  simp only [Bool.false_eq_true, if_false, if_pos rfl]
  exact strDropRight_append y ".md"

/-- Collapsing a trailing slash-index segment. -/
theorem collapseIndex_slash_index (a : String) :
    collapseIndexSuffix (a ++ "/index") = a := by
  simp only [collapseIndexSuffix]
  rw [strEndsWith_append a "/index", if_pos rfl]
  exact strDropRight_append a "/index"

/-- A slash-free string is not collapsed. -/
theorem collapseIndex_no_slash (p : String) (h : '/' ∉ p.data) :
    collapseIndexSuffix p = p := by
  simp only [collapseIndexSuffix]
  have hf : strEndsWith p "/index" = false := by
    cases hc : strEndsWith p "/index" with
    | false => rfl
    | true =>
      exfalso
      have hs := strEndsWith_iff.mp hc
      exact h (hs.subset (by decide : '/' ∈ ("/index" : String).data))
  rw [hf]
  simp

/-- A path whose final segment is slash-free and differs from the index name
is not collapsed. -/
theorem collapseIndex_not_index (a stem : String) (hst : stem ≠ "index")
    (hsl : '/' ∉ stem.data) :
    collapseIndexSuffix (a ++ "/" ++ stem) = a ++ "/" ++ stem := by
  simp only [collapseIndexSuffix]
  suffices hf : strEndsWith (a ++ "/" ++ stem) "/index" = false by
    rw [hf]
    simp
  cases hc : strEndsWith (a ++ "/" ++ stem) "/index" with
  | false => rfl
  | true =>
    exfalso
    have hs : ("/index" : String).data <:+ (a ++ "/" ++ stem).data := strEndsWith_iff.mp hc
    have hstem_suffix : stem.data <:+ (a ++ "/" ++ stem).data := by
      rw [String.data_append]
      exact List.suffix_append _ _
    rcases suffix_or_suffix hstem_suffix hs with h1 | h1
    · obtain ⟨m, hm⟩ := h1
      cases m with
      | nil =>
        have heq : stem.data = ("/index" : String).data := by simpa using hm
        exact hsl (by rw [heq]; decide)
      | cons c m2 =>
        have hm2 : c :: (m2 ++ stem.data) = '/' :: "index".data := by
          rw [show (("/index" : String).data : List Char) = '/' :: "index".data from rfl] at hm
          simpa using hm
        injection hm2 with hc1 hc2tail
        cases m2 with
        | nil =>
          have heq : stem = "index" := String.ext (by simpa using hc2tail)
          exact hst heq
        | cons d m3 =>
          obtain ⟨pfx, hp⟩ := hs
          have hfull : (pfx ++ ('/' :: d :: m3)) ++ stem.data = (a ++ "/").data ++ stem.data := by
            calc (pfx ++ ('/' :: d :: m3)) ++ stem.data
                = pfx ++ ('/' :: ((d :: m3) ++ stem.data)) := by simp
              _ = pfx ++ ('/' :: "index".data) := by rw [hc2tail]
              _ = pfx ++ ("/index" : String).data := rfl
              _ = (a ++ "/" ++ stem).data := hp
              _ = (a ++ "/").data ++ stem.data := by rw [String.data_append]
          have hcancel : pfx ++ '/' :: d :: m3 = (a ++ "/").data :=
            List.append_cancel_right hfull
          have hlast1 : ((a ++ "/").data).getLast? = some '/' := by
            rw [String.data_append,
              List.getLast?_append_of_ne_nil _ (by decide : (("/" : String).data : List Char) ≠ [])]
            rfl
          have hlast2 : (pfx ++ '/' :: d :: m3).getLast? = (d :: m3).getLast? := by
            rw [show ('/' :: d :: m3) = ['/'] ++ (d :: m3) from rfl]
            rw [← List.append_assoc]
            exact List.getLast?_append_of_ne_nil _ (by simp)
          have hvd : (d :: m3).getLast? = some '/' := by
            rw [← hlast2, hcancel, hlast1]
          have hne : (d :: m3) ≠ [] := by simp
          rw [List.getLast?_eq_getLast _ hne] at hvd
          have hmem : '/' ∈ d :: m3 := by
            have := List.getLast_mem hne
            rwa [Option.some_inj.mp hvd] at this
          have hpre : (d :: m3) <+: "index".data := ⟨stem.data, hc2tail⟩
          exact absurd (hpre.subset hmem) (by decide)
    · exact absurd (h1.subset (by decide : '/' ∈ ("/index" : String).data)) hsl

/-- C9 amended: the slug the scanner computes for a matching page equals the
relative path with the markdown extension stripped and a trailing slash-index
segment collapsed to the parent path.  Collapsing therefore happens exactly
for index files inside a subdirectory; a root-level index file keeps the slug
index, because there is no preceding separator to match. -/
theorem computeSlug_segments (dirs : List String) (stem ext : String)
    (hext : ext = ".md" ∨ ext = ".mdx")
    (hdirs : ∀ d ∈ dirs, '/' ∉ d.data ∧ cBS ∉ d.data)
    (hstem : '/' ∉ stem.data ∧ cBS ∉ stem.data) :
    computeSlug (joinSegs (dirs ++ [stem ++ ext])) =
      if stem = "index" ∧ dirs ≠ [] then joinSegs dirs
      else joinSegs (dirs ++ [stem]) := by
  by_cases hd : dirs = []
  · subst hd
    have h1 : joinSegs ([] ++ [stem ++ ext]) = stem ++ ext := rfl
    have h2 : joinSegs ([] ++ [stem]) = stem := rfl
    rw [h1, if_neg (by simp), h2]
    unfold computeSlug
    have hdrop : dropMdExt (stem ++ ext) = stem := by
      rcases hext with rfl | rfl
      · exact dropMdExt_md stem
      · exact dropMdExt_mdx stem
    rw [hdrop, collapseIndex_no_slash stem hstem.1, normalizeSlashes_id stem hstem.2]
  · rw [joinSegs_append_last dirs (stem ++ ext), if_neg hd]
    rw [joinSegs_append_last dirs stem, if_neg hd]
    have hassoc : joinSegs dirs ++ "/" ++ (stem ++ ext) =
        (joinSegs dirs ++ "/" ++ stem) ++ ext := by
      simp [String.append_assoc]
    rw [hassoc]
    unfold computeSlug
    have hdrop : dropMdExt ((joinSegs dirs ++ "/" ++ stem) ++ ext) =
        joinSegs dirs ++ "/" ++ stem := by
      rcases hext with rfl | rfl
      · exact dropMdExt_md _
      · exact dropMdExt_mdx _
    rw [hdrop]
    have hnobs : cBS ∉ (joinSegs dirs).data := by
      intro hmem
      rcases joinSegs_mem dirs cBS hmem with h | ⟨d, hdm, hcm⟩
      · exact absurd h (by decide)
      · exact (hdirs d hdm).2 hcm
    by_cases hidx : stem = "index"
    · subst hidx
      rw [if_pos ⟨rfl, hd⟩]
      have hjoin : joinSegs dirs ++ "/" ++ "index" = joinSegs dirs ++ "/index" := by
        rw [String.append_assoc]
        rfl
      rw [hjoin, collapseIndex_slash_index]
      exact normalizeSlashes_id _ hnobs
    · rw [if_neg (by simp [hidx])]
      rw [collapseIndex_not_index (joinSegs dirs) stem hidx hstem.1]
      apply normalizeSlashes_id
      intro hmem
      rw [String.data_append, String.data_append] at hmem
      rcases List.mem_append.mp hmem with h | h
      · rcases List.mem_append.mp h with h | h
        · exact hnobs h
        · have : cBS = '/' := by simpa using h
          exact absurd this (by decide)
      · exact hstem.2 h

/-- C9 amended witness: the theorem applied to a subdirectory index page,
whose slug collapses to the parent path. -/
theorem computeSlug_segments_witness : computeSlug "guides/index.mdx" = "guides" := by
  have h := computeSlug_segments ["guides"] "index" ".mdx" (Or.inr rfl)
    (by decide) (by decide)
  rw [if_pos ⟨rfl, by simp⟩] at h
  exact h

/-- C9 counterexample: on a root-level page named index.mdx the scanner
computes the slug index, not the empty parent path, so a file named index is
not always collapsed to its parent path. -/
theorem scanner_root_index_slug :
    (findDiagramReferences (fun _ => none) "v1" "/docs"
        (pageForest [PageTree.page "index.mdx"
          [PageItem.plantEmbed QuoteVariant.double "v1"]])).map
      (fun r => r.slug) = ["index"] ∧ ("index" : String) ≠ "" := by
  exact ⟨rfl, by decide⟩
